import Mathlib

/-!
Verification of the `mice_maze` tile game core (files `cells.py`,
`cell_definer.py`, `maze.py`, `player.py`, `Enemy.py`, `main_pygame.py`).
Python code is shallowly embedded: 2-D char arrays become functions
`ℤ × ℤ → Char`, cell grids become `List (List Cell)`, Python's signed list
indexing becomes `pyIdx`, `random.shuffle` / `random.random` draws become
explicit stream parameters, and fallible operations return `Option`.
-/

set_option maxHeartbeats 1000000

namespace MiceMaze

/-! ## Cell model (`cells.py`, `cell_definer.py`) -/

inductive CellType where
  | EMPTY
  | WALL
  | EXIT
deriving DecidableEq, Repr

/-- `Cell` dataclass from `cells.py`: symbol, walkable flag, cell type. -/
structure Cell where
  symbol : String := " "
  walkable : Bool := true
  cell_type : CellType := CellType.EMPTY
deriving DecidableEq, Repr

instance : Inhabited Cell := ⟨{}⟩

/-- `cell_from_char` from `cell_definer.py` (the generator and loader path;
note it leaves `cell_type` at its default, as the source does). -/
def cell_from_char (ch : Char) : Cell :=
  if ch = '#' then { symbol := "#", walkable := false }
  else if ch = ' ' then { symbol := " ", walkable := true }
  else if ch = 'X' then { symbol := "X", walkable := true }
  else { symbol := " ", walkable := true }

abbrev Grid := List (List Cell)

/-- Python list indexing `l[i]` for a signed index: indices in `[0, len)`
read directly, indices in `[-len, 0)` wrap to `len + i`, anything else
raises `IndexError` (modelled as `none`). -/
def pyIdx {α : Type} (l : List α) (i : ℤ) : Option α :=
  if 0 ≤ i then l.get? i.toNat
  else if 0 ≤ (l.length : ℤ) + i then l.get? ((l.length : ℤ) + i).toNat
  else none

namespace Maze

/-- `Maze.height`: `len(self.grid)`. -/
def height (g : Grid) : ℤ := g.length

/-- `Maze.width`: `len(self.grid[0]) if self.grid else 0`. -/
def width (g : Grid) : ℤ :=
  match g with
  | [] => 0
  | r :: _ => r.length

/-- `Maze.cell_at(x, y)`: `self.grid[y][x]` with Python indexing semantics. -/
def cell_at (g : Grid) (x y : ℤ) : Option Cell :=
  (pyIdx g y).bind fun row => pyIdx row x

end Maze

/-- The grid invariant from the data model: every row has the width of the
first row (rectangular grid). -/
def Rect (g : Grid) : Prop := ∀ r ∈ g, (r.length : ℤ) = Maze.width g

instance (g : Grid) : Decidable (Rect g) := by
  unfold Rect; infer_instance

/-- Guarded read of a cell's symbol; call sites in the source always
bounds-check first, so the `"#"` default is never observable there. -/
def symAt (g : Grid) (x y : ℤ) : String :=
  ((Maze.cell_at g x y).map Cell.symbol).getD "#"

/-- Guarded read of a cell's walkable flag (same guard discipline). -/
def walkAt (g : Grid) (x y : ℤ) : Bool :=
  ((Maze.cell_at g x y).map Cell.walkable).getD false

/-- In-place `cell.symbol = s` on the (bounds-checked, non-negative)
coordinate `(x, y)`, as a functional grid update. -/
def setSym (g : Grid) (x y : ℤ) (s : String) : Grid :=
  g.set y.toNat
    (let row := g.getD y.toNat []
     row.set x.toNat { row.getD x.toNat default with symbol := s })

/-! ### Basic indexing lemmas -/

theorem pyIdx_eq_none {α : Type} (l : List α) (i : ℤ) :
    pyIdx l i = none ↔ (i < -(l.length : ℤ) ∨ (l.length : ℤ) ≤ i) := by
  unfold pyIdx
  split_ifs with h1 h2
  · rw [List.get?_eq_none]
    omega
  · rw [List.get?_eq_none]
    omega
  · simp only [true_iff]
    omega

theorem pyIdx_nonneg {α : Type} (l : List α) (i : ℤ) (h0 : 0 ≤ i) :
    pyIdx l i = l.get? i.toNat := by
  unfold pyIdx
  simp [h0]

theorem pyIdx_mem {α : Type} {l : List α} {i : ℤ} {a : α}
    (h : pyIdx l i = some a) : a ∈ l := by
  unfold pyIdx at h
  split_ifs at h
  · exact List.get?_mem h
  · exact List.get?_mem h

/-! ## Player hit points (`player.py`, `main_pygame.py`)

`main_pygame.py` constants: `PLAYER_MAX_HP = 3`, `ENEMY_DAMAGE = 1`. -/

def PLAYER_MAX_HP : ℤ := 3
def ENEMY_DAMAGE : ℤ := 1

/-- The enemy-contact damage assignment in the main loop:
`player.hp -= ENEMY_DAMAGE` — a plain, unclamped field assignment. -/
def damageAssign (hp : ℤ) : ℤ := hp - ENEMY_DAMAGE

/-- The heal assignment (`try_move` heal branch, and the cheat key):
`player.hp = min(PLAYER_MAX_HP, player.hp + 1)`. -/
def healAssign (hp : ℤ) : ℤ := min PLAYER_MAX_HP (hp + 1)

/-- One hp-relevant event of a main-loop pass. -/
inductive HpEvent where
  | hit
  | heal
  | idle
deriving DecidableEq, Repr

/-- One hp assignment of the running main loop followed by the loss check
`if player.hp <= 0: running = False`.  State: (hp, running). -/
def hpTick (s : ℤ × Bool) (ev : HpEvent) : ℤ × Bool :=
  if s.2 = false then s
  else
    let hp1 :=
      match ev with
      | .hit => damageAssign s.1
      | .heal => healAssign s.1
      | .idle => s.1
    (hp1, decide (0 < hp1))

/-- A level run: hp is set to `PLAYER_MAX_HP` at level start
(`player.hp = PLAYER_MAX_HP`), then the event list is processed. -/
def hpRun (evs : List HpEvent) : ℤ × Bool :=
  evs.foldl hpTick (PLAYER_MAX_HP, true)

def HpInv (s : ℤ × Bool) : Prop :=
  0 ≤ s.1 ∧ s.1 ≤ PLAYER_MAX_HP ∧ (s.2 = true → 1 ≤ s.1)

theorem hpTick_inv (s : ℤ × Bool) (ev : HpEvent) (h : HpInv s) :
    HpInv (hpTick s ev) := by
  obtain ⟨h0, h1, h2⟩ := h
  simp only [PLAYER_MAX_HP] at h1
  unfold hpTick
  rcases hb : s.2 with _ | _
  · rw [if_pos rfl]
    exact ⟨h0, by simp only [PLAYER_MAX_HP]; omega, h2⟩
  · have hge : 1 ≤ s.1 := h2 hb
    rw [if_neg (by simp)]
    cases ev <;>
      simp only [HpInv, damageAssign, healAssign, ENEMY_DAMAGE, PLAYER_MAX_HP,
        decide_eq_true_eq, min_le_iff, le_min_iff] <;>
      refine ⟨by omega, by omega, fun hd => by omega⟩

theorem hpRun_inv (evs : List HpEvent) : HpInv (hpRun evs) := by
  have key : ∀ (l : List HpEvent) (s : ℤ × Bool), HpInv s → HpInv (l.foldl hpTick s) := by
    intro l
    induction l with
    | nil => intro s hs; exact hs
    | cons e t ih =>
      intro s hs
      exact ih _ (hpTick_inv s e hs)
  exact key evs _ (by unfold HpInv PLAYER_MAX_HP; refine ⟨by omega, by omega, fun _ => by omega⟩)

/-- C4 counterexample: the damage assignment is not clamped.  Applied at
hp = 0 (a value inside the claimed observable range [0, max]) it produces
−1, which is below zero — so hit points are not "clamped on every
assignment". -/
theorem C4_hp_not_clamped_cex :
    damageAssign 0 = -1 ∧ ¬ (0 ≤ damageAssign 0) := by
  constructor
  · rfl
  · intro h
    simp only [damageAssign, ENEMY_DAMAGE] at h
    omega

/-- C4 (amended): hp assignments are not clamped on write (the damage
assignment subtracts `ENEMY_DAMAGE` unclamped), but every state observable
along a main-loop run that starts at `PLAYER_MAX_HP` keeps hp within
[0, PLAYER_MAX_HP]: heals are min-clamped at the maximum, damage is 1 per
hit, and the loop stops running as soon as hp ≤ 0. -/
theorem C4_hp_range_along_run (evs : List HpEvent) :
    0 ≤ (hpRun evs).1 ∧ (hpRun evs).1 ≤ PLAYER_MAX_HP := by
  have h := hpRun_inv evs
  exact ⟨h.1, h.2.1⟩

/-! ## C5: `Maze.cell_at` out-of-range behaviour -/

/-- A concrete 2×2 rectangular grid. -/
def gridC5 : Grid :=
  [[cell_from_char '#', cell_from_char ' '],
   [cell_from_char 'X', cell_from_char '#']]

/-- C5 counterexample: `(-1, 0)` is outside `[0,width) × [0,height)`, yet
`cell_at` silently returns the last cell of row 0 (Python negative-index
wrap-around) instead of failing. -/
theorem C5_negative_index_cex :
    ((-1 : ℤ) < 0 ∨ Maze.width gridC5 ≤ -1 ∨ (0 : ℤ) < 0 ∨ Maze.height gridC5 ≤ 0) ∧
      Maze.cell_at gridC5 (-1) 0 = some (cell_from_char ' ') := by
  constructor
  · left; omega
  · rfl

/-- C5 (amended): on a rectangular grid, `cell_at(x, y)` raises an
IndexError (returns `none`) exactly when `y ∉ [-height, height)` or
`x ∉ [-width, width)`; for negative in-range coordinates it silently
returns the wrapped-around cell rather than failing. -/
theorem C5_cell_at_none_iff (g : Grid) (hR : Rect g) (x y : ℤ) :
    Maze.cell_at g x y = none ↔
      (y < -(Maze.height g) ∨ Maze.height g ≤ y ∨
       x < -(Maze.width g) ∨ Maze.width g ≤ x) := by
  unfold Maze.cell_at Maze.height
  rcases hrow : pyIdx g y with _ | row
  · have hy := (pyIdx_eq_none g y).mp hrow
    simp only [Option.none_bind, eq_self_iff_true, true_iff]
    rcases hy with hy | hy
    · left; exact hy
    · right; left; exact hy
  · have hmem := pyIdx_mem hrow
    have hlen : (row.length : ℤ) = Maze.width g := hR row hmem
    have hy : ¬ (y < -(g.length : ℤ) ∨ (g.length : ℤ) ≤ y) := by
      intro hc
      rw [(pyIdx_eq_none g y).mpr hc] at hrow
      exact Option.noConfusion hrow
    simp only [Option.some_bind]
    rw [pyIdx_eq_none, hlen]
    omega

/-- Witness for C5 (amended): on the concrete 2×2 grid, `cell_at(5, 0)`
fails (returns `none`). -/
theorem C5_cell_at_none_iff_witness : Maze.cell_at gridC5 5 0 = none :=
  (C5_cell_at_none_iff gridC5 (by decide) 5 0).mpr (by right; right; right; decide)

/-! ## More indexing lemmas, for grid updates -/

theorem cell_at_nonneg (g : Grid) (x y : ℤ) (hx : 0 ≤ x) (hy : 0 ≤ y) :
    Maze.cell_at g x y = (g.get? y.toNat).bind fun row => row.get? x.toNat := by
  unfold Maze.cell_at
  rw [pyIdx_nonneg g y hy]
  cases hg : g.get? y.toNat with
  | none => rfl
  | some row =>
    simp only [Option.some_bind]
    exact pyIdx_nonneg row x hx

theorem row_length (g : Grid) (hR : Rect g) {row : List Cell} {n : ℕ}
    (h : g.get? n = some row) : (row.length : ℤ) = Maze.width g :=
  hR row (List.get?_mem h)

theorem row_at_of_lt (g : Grid) {y : ℤ} (hy : 0 ≤ y) (hyh : y < Maze.height g) :
    ∃ row, g.get? y.toNat = some row := by
  have hlt : y.toNat < g.length := by
    unfold Maze.height at hyh; omega
  exact ⟨g.get ⟨y.toNat, hlt⟩, List.get?_eq_get hlt⟩

theorem cell_at_some (g : Grid) (hR : Rect g) (x y : ℤ)
    (hx : 0 ≤ x) (hxw : x < Maze.width g) (hy : 0 ≤ y) (hyh : y < Maze.height g) :
    ∃ c, Maze.cell_at g x y = some c := by
  obtain ⟨row, hrow⟩ := row_at_of_lt g hy hyh
  have hw := row_length g hR hrow
  have hxl : x.toNat < row.length := by omega
  refine ⟨row.get ⟨x.toNat, hxl⟩, ?_⟩
  rw [cell_at_nonneg g x y hx hy, hrow]
  simp only [Option.some_bind]
  exact List.get?_eq_get hxl

theorem symAt_eq (g : Grid) {x y : ℤ} {c : Cell}
    (h : Maze.cell_at g x y = some c) : symAt g x y = c.symbol := by
  unfold symAt
  rw [h]
  rfl

/-- Reading the updated cell back: the cell keeps its other fields and gets
the new symbol. -/
theorem cell_at_setSym_self (g : Grid) (hR : Rect g) (x y : ℤ) (s : String)
    (hx : 0 ≤ x) (hxw : x < Maze.width g) (hy : 0 ≤ y) (hyh : y < Maze.height g)
    {c : Cell} (hc : Maze.cell_at g x y = some c) :
    Maze.cell_at (setSym g x y s) x y = some { c with symbol := s } := by
  obtain ⟨row, hrow⟩ := row_at_of_lt g hy hyh
  have hw := row_length g hR hrow
  have hxl : x.toNat < row.length := by omega
  have hyl : y.toNat < g.length := by
    unfold Maze.height at hyh; omega
  have hcd : row.getD x.toNat default = c := by
    rw [cell_at_nonneg g x y hx hy, hrow] at hc
    simp only [Option.some_bind] at hc
    rw [List.getD_eq_getD_get?, hc]
    rfl
  have hgd : g.getD y.toNat [] = row := by
    rw [List.getD_eq_getD_get?, hrow]
    rfl
  unfold setSym
  rw [cell_at_nonneg _ x y hx hy, hgd]
  rw [List.get?_set_eq_of_lt _ (by simpa using hyl)]
  simp only [Option.some_bind]
  rw [List.get?_set_eq_of_lt _ (by simpa using hxl), hcd]

/-- Frame rule for `setSym`: any other (non-negatively addressed) cell is
unchanged. -/
theorem cell_at_setSym_other (g : Grid) (x y : ℤ) (s : String)
    (x' y' : ℤ) (hx' : 0 ≤ x') (hy' : 0 ≤ y') (hne : (x', y') ≠ (x, y))
    (hx : 0 ≤ x) (hy : 0 ≤ y) :
    Maze.cell_at (setSym g x y s) x' y' = Maze.cell_at g x' y' := by
  unfold setSym
  rw [cell_at_nonneg _ x' y' hx' hy', cell_at_nonneg g x' y' hx' hy']
  by_cases hyy : y'.toNat = y.toNat
  · have hyeq : y' = y := by omega
    have hxne : x' ≠ x := fun hxx => hne (by rw [hxx, hyeq])
    have hxx : x.toNat ≠ x'.toNat := by omega
    rw [hyy]
    cases hrow : g.get? y.toNat with
    | none =>
      rw [List.get?_eq_none] at hrow
      rw [List.get?_eq_none.mpr (by simpa [List.length_set] using hrow)]
    | some row =>
      have hgd : g.getD y.toNat [] = row := by
        rw [List.getD_eq_getD_get?, hrow]
        rfl
      by_cases hyl : y.toNat < g.length
      · rw [List.get?_set_eq_of_lt _ hyl]
        simp only [Option.some_bind]
        rw [hgd, List.get?_set_ne _ _ hxx]
      · obtain ⟨hlt, -⟩ := List.get?_eq_some.mp hrow
        omega
  · rw [List.get?_set_ne _ _ (fun h => hyy h.symm)]

/-! ## Player and inventory (`player.py`) -/

/-- `Item` dataclass: name and price. -/
structure Item where
  name : String
  price : ℤ
deriving DecidableEq, Repr

/-- `Player` dataclass from `player.py`.  Note: `hp` is a plain field, with
no property-based clamping anywhere in the source. -/
structure Player where
  x : ℤ
  y : ℤ
  name : String := "Player"
  coins : ℤ := 0
  lives : ℤ := 3
  hp : ℤ := 5
  inventory : List Item := []
deriving DecidableEq, Repr

/-! ## `try_move` (`main_pygame.py`) -/

def WALL_SYM : String := "#"
def EXIT_SYM : String := "X"
def CHEESE_SYM : String := "C"
def HEAL_SYM : String := "H"

/-- `try_move(maze, player, dx, dy)`: the mutations (player fields, the
target cell's symbol) are returned functionally together with the outcome
string. -/
def try_move (g : Grid) (p : Player) (dx dy : ℤ) : Grid × Player × String :=
  let nx := p.x + dx
  let ny := p.y + dy
  if ¬ (0 ≤ nx ∧ nx < Maze.width g ∧ 0 ≤ ny ∧ ny < Maze.height g) then
    (g, p, "blocked")
  else
    let sym := symAt g nx ny
    if sym = WALL_SYM then (g, p, "wall")
    else if sym = EXIT_SYM then (g, { p with x := nx, y := ny }, "exit")
    else if sym = CHEESE_SYM then
      (setSym g nx ny " ",
       { p with x := nx, y := ny, coins := p.coins + 1 }, "cheese +1")
    else if sym = HEAL_SYM then
      (setSym g nx ny " ",
       { p with x := nx, y := ny, hp := min PLAYER_MAX_HP (p.hp + 1) }, "heal +1")
    else (g, { p with x := nx, y := ny }, "moved")

/-- C7: moving onto a coin-like (cheese) tile moves the player, adds one
coin, clears the tile to floor (all other cells untouched) and reports the
coin outcome; out-of-bounds and wall targets change nothing. -/
theorem C7_try_move_coin (g : Grid) (hR : Rect g) (p : Player) (dx dy : ℤ) :
    ((0 ≤ p.x + dx ∧ p.x + dx < Maze.width g ∧ 0 ≤ p.y + dy ∧ p.y + dy < Maze.height g) →
      symAt g (p.x + dx) (p.y + dy) = CHEESE_SYM →
      (try_move g p dx dy =
        (setSym g (p.x + dx) (p.y + dy) " ",
         { p with x := p.x + dx, y := p.y + dy, coins := p.coins + 1 }, "cheese +1") ∧
       symAt (setSym g (p.x + dx) (p.y + dy) " ") (p.x + dx) (p.y + dy) = " " ∧
       (∀ x' y', 0 ≤ x' → 0 ≤ y' → (x', y') ≠ (p.x + dx, p.y + dy) →
          Maze.cell_at (setSym g (p.x + dx) (p.y + dy) " ") x' y' =
            Maze.cell_at g x' y'))) ∧
    (¬ (0 ≤ p.x + dx ∧ p.x + dx < Maze.width g ∧ 0 ≤ p.y + dy ∧ p.y + dy < Maze.height g) →
      try_move g p dx dy = (g, p, "blocked")) ∧
    ((0 ≤ p.x + dx ∧ p.x + dx < Maze.width g ∧ 0 ≤ p.y + dy ∧ p.y + dy < Maze.height g) →
      symAt g (p.x + dx) (p.y + dy) = WALL_SYM →
      try_move g p dx dy = (g, p, "wall")) := by
  refine ⟨?_, ?_, ?_⟩
  · rintro ⟨h0, h1, h2, h3⟩ hsym
    obtain ⟨c, hc⟩ := cell_at_some g hR _ _ h0 h1 h2 h3
    refine ⟨?_, ?_, ?_⟩
    · unfold try_move
      rw [if_neg (not_not_intro ⟨h0, h1, h2, h3⟩)]
      rw [if_neg (by rw [hsym]; decide), if_neg (by rw [hsym]; decide),
        if_pos hsym]
    · rw [symAt_eq _ (cell_at_setSym_self g hR _ _ " " h0 h1 h2 h3 hc)]
    · intro x' y' hx' hy' hne
      exact cell_at_setSym_other g _ _ " " x' y' hx' hy' hne h0 h2
  · intro hout
    unfold try_move
    rw [if_pos hout]
  · rintro ⟨h0, h1, h2, h3⟩ hsym
    unfold try_move
    rw [if_neg (not_not_intro ⟨h0, h1, h2, h3⟩), if_pos hsym]

/-- Concrete data for the C7 witness: a 1×2 grid [floor, cheese], the
player on the floor cell. -/
def gridC7 : Grid := [[{ symbol := " " }, { symbol := "C" }]]

def playerC7 : Player := { x := 0, y := 0 }

/-- Witness for C7: the coin branch applied on the concrete grid. -/
theorem C7_try_move_coin_witness :
    try_move gridC7 playerC7 1 0 =
      (setSym gridC7 1 0 " ",
       { playerC7 with x := 1, y := 0, coins := playerC7.coins + 1 }, "cheese +1") := by
  have h := (C7_try_move_coin gridC7 (by decide) playerC7 1 0).1
    (by refine ⟨by decide, by decide, by decide, by decide⟩) (by decide)
  simpa using h.1

/-! ## `Player.use_bomb` (`player.py`) -/

theorem get?_mapIdx {α β : Type} (l : List α) (f : ℕ → α → β) (i : ℕ) :
    (l.mapIdx f).get? i = (l.get? i).map (f i) := by
  by_cases h : i < l.length
  · have h' : i < (l.mapIdx f).length := by
      simpa [List.length_mapIdx] using h
    rw [List.get?_eq_get h, List.get?_eq_get h']
    simp [List.get_mapIdx]
  · have h1 : (l.mapIdx f).get? i = none := by
      rw [List.get?_eq_none, List.length_mapIdx]
      omega
    have h2 : l.get? i = none := by
      rw [List.get?_eq_none]
      omega
    rw [h1, h2]
    rfl

/-- The 3×3 wall-destroying pass of `use_bomb`: every cell whose coordinates
are within distance 1 of the player on both axes and whose symbol is in
`destroyable = {"#"}` is replaced by `Cell()`. -/
def bombGrid (g : Grid) (px py : ℤ) : Grid :=
  g.mapIdx fun y row =>
    row.mapIdx fun x c =>
      if py - 1 ≤ (y : ℤ) ∧ (y : ℤ) ≤ py + 1 ∧ px - 1 ≤ (x : ℤ) ∧ (x : ℤ) ≤ px + 1
          ∧ c.symbol = "#"
      then {} else c

/-- `Player.use_bomb(grid)`: find the first inventory item named
"Бомбочка"; if none, fail; otherwise clear the 3×3 walls, remove that item
(`inventory.remove(bomb)` removes the first equal element), succeed. -/
def use_bomb (g : Grid) (p : Player) : Grid × List Item × Bool :=
  match p.inventory.find? (fun it => it.name == "Бомбочка") with
  | none => (g, p.inventory, false)
  | some bomb => (bombGrid g p.x p.y, p.inventory.erase bomb, true)

theorem cell_at_bombGrid (g : Grid) (px py x y : ℤ) (hx : 0 ≤ x) (hy : 0 ≤ y)
    {c : Cell} (hc : Maze.cell_at g x y = some c) :
    Maze.cell_at (bombGrid g px py) x y =
      some (if py - 1 ≤ y ∧ y ≤ py + 1 ∧ px - 1 ≤ x ∧ x ≤ px + 1 ∧ c.symbol = "#"
            then {} else c) := by
  have hxx : (x.toNat : ℤ) = x := Int.toNat_of_nonneg hx
  have hyy : (y.toNat : ℤ) = y := Int.toNat_of_nonneg hy
  unfold bombGrid
  rw [cell_at_nonneg _ x y hx hy, get?_mapIdx]
  rw [cell_at_nonneg g x y hx hy] at hc
  cases hrow : g.get? y.toNat with
  | none =>
    rw [hrow] at hc
    simp at hc
  | some row =>
    rw [hrow] at hc
    simp only [Option.some_bind] at hc
    simp only [Option.map_some', Option.some_bind]
    rw [get?_mapIdx, hc]
    simp only [Option.map_some', hxx, hyy]

/-- C9: with a bomb in the inventory, `use_bomb` turns every wall tile in
the player-centred 3×3 block (clipped to the grid) into a floor `Cell()`,
leaves all other cells alone, removes exactly that one bomb item, and
succeeds; with no bomb it fails and changes nothing. -/
theorem C9_use_bomb_spec (g : Grid) (p : Player) :
    ((∀ it ∈ p.inventory, it.name ≠ "Бомбочка") →
       use_bomb g p = (g, p.inventory, false)) ∧
    ((∃ it ∈ p.inventory, it.name = "Бомбочка") →
       ∃ bomb, p.inventory.find? (fun it => it.name == "Бомбочка") = some bomb ∧
         bomb.name = "Бомбочка" ∧
         use_bomb g p = (bombGrid g p.x p.y, p.inventory.erase bomb, true) ∧
         p.inventory.Perm (bomb :: p.inventory.erase bomb) ∧
         (p.inventory.erase bomb).length + 1 = p.inventory.length) ∧
    (∀ x y : ℤ, ∀ c : Cell, 0 ≤ x → 0 ≤ y → Maze.cell_at g x y = some c →
       Maze.cell_at (bombGrid g p.x p.y) x y =
         some (if p.y - 1 ≤ y ∧ y ≤ p.y + 1 ∧ p.x - 1 ≤ x ∧ x ≤ p.x + 1 ∧ c.symbol = "#"
               then {} else c)) := by
  refine ⟨?_, ?_, ?_⟩
  · intro hnone
    have hf : p.inventory.find? (fun it => it.name == "Бомбочка") = none := by
      rw [List.find?_eq_none]
      intro it hit
      simpa using hnone it hit
    unfold use_bomb
    rw [hf]
  · intro hsome
    have hf : (p.inventory.find? (fun it => it.name == "Бомбочка")).isSome := by
      rw [List.find?_isSome]
      obtain ⟨it, hit, hname⟩ := hsome
      exact ⟨it, hit, by simpa using hname⟩
    obtain ⟨bomb, hfind⟩ := Option.isSome_iff_exists.mp hf
    have hmem : bomb ∈ p.inventory := List.find?_mem hfind
    have hname : bomb.name = "Бомбочка" := by
      have := List.find?_some hfind
      simpa using this
    refine ⟨bomb, hfind, hname, ?_, List.perm_cons_erase hmem, ?_⟩
    · unfold use_bomb
      rw [hfind]
    · have hpos : 0 < p.inventory.length := List.length_pos.mpr (List.ne_nil_of_mem hmem)
      rw [List.length_erase_of_mem hmem]
      omega
  · intro x y c hx hy hc
    exact cell_at_bombGrid g p.x p.y x y hx hy hc

/-- Concrete data for the C9 witness: a wall next to the player and one
bomb in the inventory. -/
def gridC9 : Grid := [[{ symbol := "#", walkable := false }, { symbol := " " }]]

def playerC9 : Player := { x := 1, y := 0, inventory := [⟨"Бомбочка", 10⟩] }

/-- Witness for C9: the bomb branch applied on the concrete data. -/
theorem C9_use_bomb_spec_witness :
    ∃ bomb, playerC9.inventory.find? (fun it => it.name == "Бомбочка") = some bomb ∧
      bomb.name = "Бомбочка" ∧
      use_bomb gridC9 playerC9 =
        (bombGrid gridC9 playerC9.x playerC9.y, playerC9.inventory.erase bomb, true) ∧
      playerC9.inventory.Perm (bomb :: playerC9.inventory.erase bomb) ∧
      (playerC9.inventory.erase bomb).length + 1 = playerC9.inventory.length :=
  (C9_use_bomb_spec gridC9 playerC9).2.1 ⟨⟨"Бомбочка", 10⟩, by decide, rfl⟩

/-! ## Pickup spawning (`spawn_cheese`, `spawn_heal_items`, `find_symbol`) -/

theorem width_nonneg (g : Grid) : 0 ≤ Maze.width g := by
  unfold Maze.width
  cases g <;> simp

theorem height_nonneg (g : Grid) : 0 ≤ Maze.height g := by
  unfold Maze.height
  exact Int.natCast_nonneg _

/-- In-bounds predicate for a coordinate pair. -/
def InB (g : Grid) (p : ℤ × ℤ) : Prop :=
  0 ≤ p.1 ∧ p.1 < Maze.width g ∧ 0 ≤ p.2 ∧ p.2 < Maze.height g

theorem setSym_height (g : Grid) (x y : ℤ) (s : String) :
    Maze.height (setSym g x y s) = Maze.height g := by
  unfold setSym Maze.height
  rw [List.length_set]

theorem setSym_width (g : Grid) (x y : ℤ) (s : String) :
    Maze.width (setSym g x y s) = Maze.width g := by
  unfold setSym Maze.width
  cases g with
  | nil => rfl
  | cons r t =>
    cases hn : y.toNat with
    | zero => simp [List.set, List.getD]
    | succ n => simp [List.set]

theorem setSym_rect (g : Grid) (x y : ℤ) (s : String) (hR : Rect g) :
    Rect (setSym g x y s) := by
  intro r hr
  rw [setSym_width]
  by_cases hyl : y.toNat < g.length
  · unfold setSym at hr
    rcases List.mem_or_eq_of_mem_set hr with hmem | heq
    · exact hR r hmem
    · subst heq
      rw [List.length_set]
      have hgd : g.getD y.toNat [] = g.get ⟨y.toNat, hyl⟩ :=
        List.getD_eq_get g [] hyl
      rw [hgd]
      exact hR _ (List.get_mem g y.toNat hyl)
  · unfold setSym at hr
    rw [List.set_eq_of_length_le (by omega)] at hr
    exact hR r hr

theorem setSym_InB (g : Grid) (x y : ℤ) (s : String) (p : ℤ × ℤ) (h : InB g p) :
    InB (setSym g x y s) p := by
  unfold InB at h ⊢
  rw [setSym_width, setSym_height]
  exact h

/-- The eligible-cell scan shared by `spawn_cheese` and `spawn_heal_items`:
row-major walkable floor cells that are not the start. -/
def empties (g : Grid) (start : ℤ × ℤ) : List (ℤ × ℤ) :=
  (List.range (Maze.height g).toNat).flatMap fun (y : ℕ) =>
    (List.range (Maze.width g).toNat).filterMap fun (x : ℕ) =>
      if walkAt g (x : ℤ) (y : ℤ) = true ∧ symAt g (x : ℤ) (y : ℤ) = " " ∧
          ((x : ℤ), (y : ℤ)) ≠ start
      then some ((x : ℤ), (y : ℤ)) else none

/-- `Maze.find_symbol`: first coordinate whose cell carries `sym`, in
row-major order. -/
def find_symbol (g : Grid) (sym : String) : Option (ℤ × ℤ) :=
  ((List.range (Maze.height g).toNat).flatMap fun (y : ℕ) =>
    (List.range (Maze.width g).toNat).filterMap fun (x : ℕ) =>
      if symAt g (x : ℤ) (y : ℤ) = sym then some ((x : ℤ), (y : ℤ)) else none).head?

/-- The eligible list after
`exit_pos = maze.find_symbol(EXIT_SYM); if exit_pos in empties: empties.remove(exit_pos)`
(dead in practice: the exit's symbol is "X", never " "). -/
def afterExitRemoval (g : Grid) (start : ℤ × ℤ) : List (ℤ × ℤ) :=
  let es := empties g start
  match find_symbol g EXIT_SYM with
  | some q => if q ∈ es then es.erase q else es
  | none => es

/-- `for (x, y) in shuffled[:count]: maze.cell_at(x, y).symbol = sym`. -/
def place (g : Grid) (l : List (ℤ × ℤ)) (sym : String) : Grid :=
  l.foldl (fun acc p => setSym acc p.1 p.2 sym) g

/-- `spawn_cheese(maze, count, start_pos)`: `shuffled` stands for the
`random.shuffle(empties)` result (an arbitrary permutation of the eligible
list, supplied as a parameter). -/
def spawn_cheese (g : Grid) (count : ℕ) (start : ℤ × ℤ)
    (shuffled : List (ℤ × ℤ)) : Grid :=
  place g (shuffled.take count) CHEESE_SYM

/-- `spawn_heal_items`: identical to `spawn_cheese` except for the symbol. -/
def spawn_heal_items (g : Grid) (count : ℕ) (start : ℤ × ℤ)
    (shuffled : List (ℤ × ℤ)) : Grid :=
  place g (shuffled.take count) HEAL_SYM

theorem mem_empties (g : Grid) (start : ℤ × ℤ) (p : ℤ × ℤ) :
    p ∈ empties g start ↔
      InB g p ∧ walkAt g p.1 p.2 = true ∧ symAt g p.1 p.2 = " " ∧ p ≠ start := by
  have hw := width_nonneg g
  have hh := height_nonneg g
  unfold empties InB
  rw [List.mem_flatMap]
  constructor
  · rintro ⟨y, hy, hp⟩
    rw [List.mem_range] at hy
    rw [List.mem_filterMap] at hp
    obtain ⟨x, hx, hif⟩ := hp
    rw [List.mem_range] at hx
    by_cases hcond : walkAt g (x : ℤ) (y : ℤ) = true ∧ symAt g (x : ℤ) (y : ℤ) = " " ∧
        ((x : ℤ), (y : ℤ)) ≠ start
    · rw [if_pos hcond] at hif
      obtain ⟨hwk, hsym, hne⟩ := hcond
      have hpe : p = ((x : ℤ), (y : ℤ)) := by simpa using hif.symm
      subst hpe
      exact ⟨⟨by omega, by omega, by omega, by omega⟩, hwk, hsym, hne⟩
    · rw [if_neg hcond] at hif
      exact absurd hif (by simp)
  · rintro ⟨⟨h1, h2, h3, h4⟩, hwk, hsym, hne⟩
    refine ⟨p.2.toNat, by rw [List.mem_range]; omega, ?_⟩
    rw [List.mem_filterMap]
    refine ⟨p.1.toNat, by rw [List.mem_range]; omega, ?_⟩
    have e1 : ((p.1.toNat : ℤ)) = p.1 := by omega
    have e2 : ((p.2.toNat : ℤ)) = p.2 := by omega
    rw [e1, e2, if_pos ⟨hwk, hsym, hne⟩]

theorem empties_nodup (g : Grid) (start : ℤ × ℤ) : (empties g start).Nodup := by
  unfold empties
  rw [List.nodup_flatMap]
  constructor
  · intro y hy
    refine List.Nodup.filterMap ?_ (List.nodup_range _)
    intro a a' b hb hb'
    split_ifs at hb hb' with h1 h2
    · simp only [Option.mem_def, Option.some.injEq] at hb hb'
      have hab : ((a : ℤ), (y : ℤ)) = ((a' : ℤ), (y : ℤ)) := by rw [hb, hb']
      have := congrArg Prod.fst hab
      simpa using this
    all_goals simp at hb hb'
  · refine (List.pairwise_lt_range _).imp ?_
    intro a b hab
    intro p hpa hpb
    rw [List.mem_filterMap] at hpa hpb
    obtain ⟨x1, -, h1⟩ := hpa
    obtain ⟨x2, -, h2⟩ := hpb
    split_ifs at h1 h2
    simp only [Option.some.injEq] at h1 h2
    have ha : p.2 = (a : ℤ) := by rw [← h1]
    have hb' : p.2 = (b : ℤ) := by rw [← h2]
    omega

theorem afterExitRemoval_subset (g : Grid) (start : ℤ × ℤ) :
    ∀ p ∈ afterExitRemoval g start, p ∈ empties g start := by
  intro p hp
  unfold afterExitRemoval at hp
  rcases hf : find_symbol g EXIT_SYM with _ | q
  · rw [hf] at hp
    exact hp
  · rw [hf] at hp
    have hp' : p ∈ (if q ∈ empties g start then (empties g start).erase q
        else empties g start) := hp
    split_ifs at hp'
    · exact List.mem_of_mem_erase hp'
    · exact hp'

theorem afterExitRemoval_nodup (g : Grid) (start : ℤ × ℤ) :
    (afterExitRemoval g start).Nodup := by
  unfold afterExitRemoval
  rcases find_symbol g EXIT_SYM with _ | q
  · exact empties_nodup g start
  · show (if q ∈ empties g start then (empties g start).erase q
      else empties g start).Nodup
    split_ifs
    · exact (empties_nodup g start).erase q
    · exact empties_nodup g start

theorem find_symbol_some (g : Grid) (s : String) (q : ℤ × ℤ)
    (h : find_symbol g s = some q) : symAt g q.1 q.2 = s := by
  unfold find_symbol at h
  have hmem := List.mem_of_mem_head? (Option.mem_def.mpr h)
  rw [List.mem_flatMap] at hmem
  obtain ⟨y, -, hp⟩ := hmem
  rw [List.mem_filterMap] at hp
  obtain ⟨x, -, hif⟩ := hp
  split_ifs at hif with hcond
  have : q = ((x : ℤ), (y : ℤ)) := by simpa using hif.symm
  subst this
  exact hcond

theorem place_frame (sym : String) (l : List (ℤ × ℤ)) :
    ∀ (g : Grid) (x y : ℤ), 0 ≤ x → 0 ≤ y →
      (∀ p ∈ l, 0 ≤ p.1 ∧ 0 ≤ p.2) → (x, y) ∉ l →
      Maze.cell_at (place g l sym) x y = Maze.cell_at g x y := by
  induction l with
  | nil =>
    intro g x y _ _ _ _
    rfl
  | cons q t ih =>
    intro g x y hx hy hl hmem
    have hq := hl q (List.mem_cons_self _ _)
    have h1 : place g (q :: t) sym = place (setSym g q.1 q.2 sym) t sym := rfl
    have hne : (x, y) ≠ (q.1, q.2) := by
      intro h
      apply hmem
      rw [h]
      exact List.mem_cons_self _ _
    rw [h1, ih _ x y hx hy (fun p hp => hl p (List.mem_cons_of_mem _ hp))
      (fun h => hmem (List.mem_cons_of_mem _ h))]
    exact cell_at_setSym_other g q.1 q.2 sym x y hx hy hne hq.1 hq.2

theorem place_cell_at (sym : String) (l : List (ℤ × ℤ)) :
    ∀ (g : Grid), Rect g → (∀ p ∈ l, InB g p) →
    ∀ (x y : ℤ), 0 ≤ x → 0 ≤ y → ∀ c : Cell, Maze.cell_at g x y = some c →
    Maze.cell_at (place g l sym) x y =
      some (if (x, y) ∈ l then { c with symbol := sym } else c) := by
  induction l with
  | nil =>
    intro g _ _ x y _ _ c hc
    simpa using hc
  | cons q t ih =>
    intro g hR hl x y hx hy c hc
    have hq := hl q (List.mem_cons_self _ _)
    have hR' : Rect (setSym g q.1 q.2 sym) := setSym_rect g q.1 q.2 sym hR
    have hl' : ∀ p ∈ t, InB (setSym g q.1 q.2 sym) p := fun p hp =>
      setSym_InB g q.1 q.2 sym p (hl p (List.mem_cons_of_mem _ hp))
    have h1 : place g (q :: t) sym = place (setSym g q.1 q.2 sym) t sym := rfl
    rw [h1]
    by_cases hq' : (x, y) = q
    · obtain rfl : q = (x, y) := hq'.symm
      have hc' : Maze.cell_at (setSym g x y sym) x y = some { c with symbol := sym } :=
        cell_at_setSym_self g hR x y sym hq.1 hq.2.1 hq.2.2.1 hq.2.2.2 hc
      rw [ih _ hR' hl' x y hx hy _ hc']
      rw [if_pos (List.mem_cons_self _ _)]
      by_cases ht : (x, y) ∈ t
      · rw [if_pos ht]
      · rw [if_neg ht]
    · have hc' : Maze.cell_at (setSym g q.1 q.2 sym) x y = some c :=
        (cell_at_setSym_other g q.1 q.2 sym x y hx hy (fun h => hq' h)
          hq.1 hq.2.2.1).trans hc
      rw [ih _ hR' hl' x y hx hy c hc']
      by_cases ht : (x, y) ∈ t
      · rw [if_pos ht, if_pos (List.mem_cons_of_mem _ ht)]
      · rw [if_neg ht, if_neg (by simp [List.mem_cons, hq', ht])]

/-- C8: spawning `count` pickups over the eligible-cell list (walkable
floor cells, start excluded, exit removed) marks exactly
`min count (number of eligible cells)` pairwise-distinct cells, all
in-bounds eligible floor cells distinct from the start and the exit, with
every other cell untouched; `spawn_cheese` and `spawn_heal_items` are the
two instances. -/
theorem C8_spawn_pickups (g : Grid) (hR : Rect g) (count : ℕ) (start : ℤ × ℤ)
    (sym : String) (shuffled : List (ℤ × ℤ))
    (hperm : shuffled.Perm (afterExitRemoval g start)) :
    (shuffled.take count).Nodup ∧
    (shuffled.take count).length = min count (afterExitRemoval g start).length ∧
    (∀ p ∈ shuffled.take count,
       InB g p ∧ p ≠ start ∧ symAt g p.1 p.2 = " " ∧ walkAt g p.1 p.2 = true ∧
       (∀ q, find_symbol g EXIT_SYM = some q → p ≠ q) ∧
       symAt (place g (shuffled.take count) sym) p.1 p.2 = sym) ∧
    (∀ x y : ℤ, 0 ≤ x → 0 ≤ y → (x, y) ∉ shuffled.take count →
       Maze.cell_at (place g (shuffled.take count) sym) x y = Maze.cell_at g x y) ∧
    spawn_cheese g count start shuffled = place g (shuffled.take count) CHEESE_SYM ∧
    spawn_heal_items g count start shuffled = place g (shuffled.take count) HEAL_SYM := by
  have hsub : ∀ p ∈ shuffled.take count, p ∈ empties g start := fun p hp =>
    afterExitRemoval_subset g start p
      (hperm.subset (List.take_subset count shuffled hp))
  have hinb : ∀ p ∈ shuffled.take count, InB g p := fun p hp =>
    ((mem_empties g start p).mp (hsub p hp)).1
  refine ⟨?_, ?_, ?_, ?_, rfl, rfl⟩
  · exact (List.take_sublist count shuffled).nodup
      (hperm.symm.nodup (afterExitRemoval_nodup g start))
  · rw [List.length_take, hperm.length_eq]
  · intro p hp
    obtain ⟨hb, hwk, hsym, hne⟩ := (mem_empties g start p).mp (hsub p hp)
    refine ⟨hb, hne, hsym, hwk, ?_, ?_⟩
    · intro q hq hpq
      have hxq := find_symbol_some g EXIT_SYM q hq
      rw [← hpq] at hxq
      rw [hsym] at hxq
      exact absurd hxq (by decide)
    · obtain ⟨c, hc⟩ := cell_at_some g hR p.1 p.2 hb.1 hb.2.1 hb.2.2.1 hb.2.2.2
      have := place_cell_at sym (shuffled.take count) g hR hinb p.1 p.2
        hb.1 hb.2.2.1 c hc
      rw [if_pos (by simpa using hp)] at this
      rw [symAt_eq _ this]
  · intro x y hx hy hmem
    exact place_frame sym (shuffled.take count) g x y hx hy
      (fun p hp => ⟨(hinb p hp).1, (hinb p hp).2.2.1⟩) hmem

/-- Concrete data for the C8 witness: a 1×2 all-floor grid, start at (0,0),
so the eligible list is exactly [(1, 0)]. -/
def gridC8 : Grid := [[{ symbol := " " }, { symbol := " " }]]

/-- Witness for C8: one pickup spawned on the concrete grid fills exactly
`min 1 1 = 1` cell. -/
theorem C8_spawn_pickups_witness :
    (([((1 : ℤ), (0 : ℤ))]).take 1).length =
      min 1 (afterExitRemoval gridC8 (0, 0)).length :=
  (C8_spawn_pickups gridC8 (by decide) 1 (0, 0) CHEESE_SYM [(1, 0)] (by decide)).2.1

/-! ## Enemy movement (`Enemy.py`) -/

/-- `Enemy` dataclass: position, heading, step counter, reset value. -/
structure Enemy where
  x : ℤ
  y : ℤ
  dx : ℤ := 1
  dy : ℤ := 0
  steps_left : ℤ := 2
  max_steps : ℤ := 2
deriving DecidableEq, Repr

/-- The optional random turn at the head of the per-enemy update:
`none` models `random.random() >= TURN_CHANCE` (no turn), `some b` a turn
whose `random.choice([-1, 1])` came out as `1` (b = true) or `-1`. -/
def turnStep (e : Enemy) (t : Option Bool) : Enemy :=
  match t with
  | some b =>
    if e.dx ≠ 0 then
      { e with dx := 0, dy := if b then 1 else -1, steps_left := e.max_steps }
    else
      { e with dx := if b then 1 else -1, dy := 0, steps_left := e.max_steps }
  | none => e

/-- The body of `move_enemies`: process the (already shuffled) enemy list
in order, threading the `occupied` and `reserved` sets; `turn i` is the
turn draw for the i-th processed enemy. -/
def stepTarget (e1 : Enemy) : ℤ × ℤ := (e1.x + e1.dx, e1.y + e1.dy)

/-- `blocked_by_wall or blocked_by_enemy` for target cell `t`:
outside the grid, a wall tile, occupied, or reserved. -/
def Blocked (g : Grid) (occ res : Finset (ℤ × ℤ)) (t : ℤ × ℤ) : Prop :=
  (¬ (0 ≤ t.1 ∧ t.1 < Maze.width g ∧ 0 ≤ t.2 ∧ t.2 < Maze.height g) ∨
    symAt g t.1 t.2 = WALL_SYM) ∨
  (t ∈ occ ∨ t ∈ res)

instance (g : Grid) (occ res : Finset (ℤ × ℤ)) (t : ℤ × ℤ) :
    Decidable (Blocked g occ res t) := by
  unfold Blocked
  infer_instance

/-- Blocked branch: reverse heading, reset steps, stay put. -/
def bounceEnemy (e1 : Enemy) : Enemy :=
  { e1 with dx := -e1.dx, dy := -e1.dy, steps_left := e1.max_steps }

/-- Unblocked branch: move one step, decrement `steps_left`, and reverse
heading with reset when the counter reaches zero. -/
def advanceEnemy (e1 : Enemy) : Enemy :=
  let e2 := { e1 with x := e1.x + e1.dx, y := e1.y + e1.dy,
                      steps_left := e1.steps_left - 1 }
  if e2.steps_left ≤ 0 then
    { e2 with dx := -e2.dx, dy := -e2.dy, steps_left := e2.max_steps }
  else e2

def moveLoop (g : Grid) (turn : ℕ → Option Bool) :
    ℕ → Finset (ℤ × ℤ) → Finset (ℤ × ℤ) → List Enemy → List Enemy
  | _, _, _, [] => []
  | i, occ, res, e :: rest =>
    let e1 := turnStep e (turn i)
    if Blocked g occ res (stepTarget e1) then
      bounceEnemy e1 :: moveLoop g turn (i + 1) occ (insert (e1.x, e1.y) res) rest
    else
      advanceEnemy e1 ::
        moveLoop g turn (i + 1) (insert (stepTarget e1) (occ.erase (e1.x, e1.y)))
          (insert (stepTarget e1) res) rest

/-- `move_enemies(maze, enemies)`: `order` is the `random.shuffle`d copy of
the enemy list; `occupied` starts as the set of all current enemy positions
(the same set for the original list and its shuffled copy), `reserved`
empty.  The result holds the updated enemies in processing order. -/
def move_enemies (g : Grid) (order : List Enemy) (turn : ℕ → Option Bool) :
    List Enemy :=
  moveLoop g turn 0 (order.map fun e => (e.x, e.y)).toFinset ∅ order

/-- One enemy-movement tick as invoked by the main loop: the maze is only
read (`cell_at` in the wall check), never written. -/
def enemyTick (g : Grid) (order : List Enemy) (turn : ℕ → Option Bool) :
    Grid × List Enemy :=
  (g, move_enemies g order turn)

/-- A valid enemy position: inside the grid and not on a wall cell. -/
def EnemyPosOk (g : Grid) (e : Enemy) : Prop :=
  InB g (e.x, e.y) ∧ symAt g e.x e.y ≠ WALL_SYM

instance (g : Grid) (e : Enemy) : Decidable (EnemyPosOk g e) := by
  unfold EnemyPosOk InB
  infer_instance

theorem turnStep_pos (e : Enemy) (t : Option Bool) :
    (turnStep e t).x = e.x ∧ (turnStep e t).y = e.y := by
  unfold turnStep
  rcases t with _ | b
  · exact ⟨rfl, rfl⟩
  · split_ifs <;> exact ⟨rfl, rfl⟩

theorem turnStep_max (e : Enemy) (t : Option Bool) :
    (turnStep e t).max_steps = e.max_steps := by
  unfold turnStep
  rcases t with _ | b
  · rfl
  · split_ifs <;> rfl

theorem bounceEnemy_pos (e1 : Enemy) :
    (bounceEnemy e1).x = e1.x ∧ (bounceEnemy e1).y = e1.y :=
  ⟨rfl, rfl⟩

theorem advanceEnemy_pos (e1 : Enemy) :
    (advanceEnemy e1).x = e1.x + e1.dx ∧ (advanceEnemy e1).y = e1.y + e1.dy := by
  simp only [advanceEnemy]
  split_ifs <;> exact ⟨rfl, rfl⟩

theorem moveLoop_cons (g : Grid) (turn : ℕ → Option Bool) (i : ℕ)
    (occ res : Finset (ℤ × ℤ)) (e : Enemy) (rest : List Enemy) :
    moveLoop g turn i occ res (e :: rest) =
      if Blocked g occ res (stepTarget (turnStep e (turn i))) then
        bounceEnemy (turnStep e (turn i)) ::
          moveLoop g turn (i + 1) occ
            (insert ((turnStep e (turn i)).x, (turnStep e (turn i)).y) res) rest
      else
        advanceEnemy (turnStep e (turn i)) ::
          moveLoop g turn (i + 1)
            (insert (stepTarget (turnStep e (turn i)))
              (occ.erase ((turnStep e (turn i)).x, (turnStep e (turn i)).y)))
            (insert (stepTarget (turnStep e (turn i))) res) rest := rfl

theorem moveLoop_inv (g : Grid) (turn : ℕ → Option Bool) :
    ∀ (todo : List Enemy) (i : ℕ) (occ res : Finset (ℤ × ℤ))
      (acc : List (ℤ × ℤ)),
      (∀ p, p ∈ occ ↔ (p ∈ acc ∨ p ∈ todo.map fun e => (e.x, e.y))) →
      (acc ++ todo.map fun e => (e.x, e.y)).Nodup →
      (∀ e ∈ todo, EnemyPosOk g e) →
      ((acc ++ (moveLoop g turn i occ res todo).map fun e => (e.x, e.y)).Nodup ∧
       ∀ e' ∈ moveLoop g turn i occ res todo, EnemyPosOk g e') := by
  intro todo
  induction todo with
  | nil =>
    intro i occ res acc hocc hnd hok
    have hz : moveLoop g turn i occ res [] = [] := rfl
    rw [hz]
    constructor
    · simpa using hnd
    · intro e' he'
      simp at he'
  | cons e rest ih =>
    intro i occ res acc hocc hnd hok
    obtain ⟨hx1, hy1⟩ := turnStep_pos e (turn i)
    have hkey : ((turnStep e (turn i)).x, (turnStep e (turn i)).y) = (e.x, e.y) := by
      rw [hx1, hy1]
    have hnd' := hnd
    rw [List.map_cons, List.nodup_append] at hnd'
    obtain ⟨hnda, hndc, hdisj⟩ := hnd'
    rw [List.nodup_cons] at hndc
    obtain ⟨hpe_rest, hndrest⟩ := hndc
    have hpe_acc : (e.x, e.y) ∉ acc := fun h => hdisj h (List.mem_cons_self _ _)
    have hokrest : ∀ a ∈ rest, EnemyPosOk g a := fun a ha =>
      hok a (List.mem_cons_of_mem _ ha)
    rw [moveLoop_cons, hkey]
    by_cases hB : Blocked g occ res (stepTarget (turnStep e (turn i)))
    · rw [if_pos hB]
      have hocc2 : ∀ p, p ∈ occ ↔
          (p ∈ acc ++ [(e.x, e.y)] ∨ p ∈ rest.map fun e => (e.x, e.y)) := by
        intro p
        rw [hocc p]
        simp only [List.map_cons, List.mem_cons, List.mem_append,
          List.mem_singleton]
        tauto
      have hnd2 : ((acc ++ [(e.x, e.y)]) ++ rest.map fun e => (e.x, e.y)).Nodup := by
        rw [List.append_assoc, List.singleton_append]
        simpa using hnd
      obtain ⟨ihnd, ihok⟩ := ih (i + 1) occ (insert (e.x, e.y) res)
        (acc ++ [(e.x, e.y)]) hocc2 hnd2 hokrest
      constructor
      · rw [List.map_cons]
        have hbp : ((bounceEnemy (turnStep e (turn i))).x,
            (bounceEnemy (turnStep e (turn i))).y) = (e.x, e.y) := by
          rw [(bounceEnemy_pos _).1, (bounceEnemy_pos _).2, hx1, hy1]
        rw [hbp, ← List.singleton_append, ← List.append_assoc]
        exact ihnd
      · intro e' he'
        rcases List.mem_cons.mp he' with heq | hmem
        · subst heq
          have hokE := hok e (List.mem_cons_self _ _)
          unfold EnemyPosOk at hokE ⊢
          rw [(bounceEnemy_pos _).1, (bounceEnemy_pos _).2, hx1, hy1]
          exact hokE
        · exact ihok e' hmem
    · rw [if_neg hB]
      unfold Blocked at hB
      push_neg at hB
      obtain ⟨⟨hbounds, hwall⟩, htocc, htres⟩ := hB
      have hta : stepTarget (turnStep e (turn i)) ∉ acc := fun h =>
        htocc ((hocc _).mpr (Or.inl h))
      have hte : stepTarget (turnStep e (turn i)) ≠ (e.x, e.y) := fun h =>
        htocc ((hocc _).mpr (Or.inr (by
          rw [h, List.map_cons]
          exact List.mem_cons_self _ _)))
      have htr : stepTarget (turnStep e (turn i)) ∉ rest.map fun e => (e.x, e.y) :=
        fun h => htocc ((hocc _).mpr (Or.inr (by
          rw [List.map_cons]
          exact List.mem_cons_of_mem _ h)))
      have hocc2 : ∀ p, p ∈ insert (stepTarget (turnStep e (turn i)))
          (occ.erase (e.x, e.y)) ↔
          (p ∈ acc ++ [stepTarget (turnStep e (turn i))] ∨
           p ∈ rest.map fun e => (e.x, e.y)) := by
        intro p
        rw [Finset.mem_insert, Finset.mem_erase, hocc p]
        simp only [List.map_cons, List.mem_cons, List.mem_append,
          List.mem_singleton, List.not_mem_nil, or_false]
        constructor
        · rintro (rfl | ⟨hne, h | h | h⟩)
          · exact Or.inl (Or.inr rfl)
          · exact Or.inl (Or.inl h)
          · exact absurd h hne
          · exact Or.inr h
        · rintro ((h | rfl) | h)
          · exact Or.inr ⟨fun hh => hpe_acc (hh ▸ h), Or.inl h⟩
          · exact Or.inl rfl
          · exact Or.inr ⟨fun hh => hpe_rest (hh ▸ h), Or.inr (Or.inr h)⟩
      have hnd2 : ((acc ++ [stepTarget (turnStep e (turn i))]) ++
          rest.map fun e => (e.x, e.y)).Nodup := by
        rw [List.nodup_append]
        refine ⟨?_, hndrest, ?_⟩
        · rw [List.nodup_append]
          refine ⟨hnda, List.nodup_singleton _, ?_⟩
          intro a ha hamem
          rw [List.mem_singleton] at hamem
          subst hamem
          exact hta ha
        · intro a ha
          rw [List.mem_append, List.mem_singleton] at ha
          rcases ha with ha | rfl
          · exact fun hh => hdisj ha (List.mem_cons_of_mem _ hh)
          · exact htr
      obtain ⟨ihnd, ihok⟩ := ih (i + 1)
        (insert (stepTarget (turnStep e (turn i))) (occ.erase (e.x, e.y)))
        (insert (stepTarget (turnStep e (turn i))) res)
        (acc ++ [stepTarget (turnStep e (turn i))]) hocc2 hnd2 hokrest
      constructor
      · rw [List.map_cons]
        have hap : ((advanceEnemy (turnStep e (turn i))).x,
            (advanceEnemy (turnStep e (turn i))).y) =
            stepTarget (turnStep e (turn i)) := by
          rw [(advanceEnemy_pos _).1, (advanceEnemy_pos _).2]
          rfl
        rw [hap, ← List.singleton_append, ← List.append_assoc]
        exact ihnd
      · intro e' he'
        rcases List.mem_cons.mp he' with heq | hmem
        · subst heq
          unfold EnemyPosOk InB
          rw [(advanceEnemy_pos _).1, (advanceEnemy_pos _).2]
          exact ⟨hbounds, hwall⟩
        · exact ihok e' hmem

/-- C3: one tick of `move_enemies` keeps enemy positions pairwise distinct,
inside the grid, and off wall cells (stated for the processed, shuffled
`order`; distinctness and validity are permutation-invariant, so they
transfer to the original list). -/
theorem C3_move_enemies_collision_free (g : Grid) (enemies order : List Enemy)
    (turn : ℕ → Option Bool) (hperm : order.Perm enemies)
    (hnodup : (enemies.map fun e => (e.x, e.y)).Nodup)
    (hok : ∀ e ∈ enemies, EnemyPosOk g e) :
    ((move_enemies g order turn).map fun e => (e.x, e.y)).Nodup ∧
    ∀ e' ∈ move_enemies g order turn, EnemyPosOk g e' := by
  have hpermmap : (order.map fun e => (e.x, e.y)).Perm
      (enemies.map fun e => (e.x, e.y)) := hperm.map _
  have hnodup' : (order.map fun e => (e.x, e.y)).Nodup :=
    hpermmap.symm.nodup hnodup
  have hok' : ∀ e ∈ order, EnemyPosOk g e := fun e he => hok e (hperm.subset he)
  have h := moveLoop_inv g turn order 0
    (order.map fun e => (e.x, e.y)).toFinset ∅ []
    (by intro p; simp) (by simpa using hnodup') hok'
  unfold move_enemies
  exact ⟨by simpa using h.1, h.2⟩

/-- Witness for C3: a single enemy on a 1×2 floor grid. -/
theorem C3_move_enemies_collision_free_witness :
    ((move_enemies gridC8 [{ x := 0, y := 0 }] fun _ => none).map
        fun e => (e.x, e.y)).Nodup ∧
    ∀ e' ∈ move_enemies gridC8 [{ x := 0, y := 0 }] fun _ => none,
      EnemyPosOk gridC8 e' :=
  C3_move_enemies_collision_free gridC8 [{ x := 0, y := 0 }]
    [{ x := 0, y := 0 }] (fun _ => none) (List.Perm.refl _) (by decide) (by decide)

/-! ## C10: frame conditions of one enemy tick -/

/-- Axis-aligned unit heading, the data-model invariant for enemies. -/
def UnitDir (e : Enemy) : Prop :=
  (e.dx = 1 ∧ e.dy = 0) ∨ (e.dx = -1 ∧ e.dy = 0) ∨
  (e.dx = 0 ∧ e.dy = 1) ∨ (e.dx = 0 ∧ e.dy = -1)

theorem turnStep_unit (e : Enemy) (t : Option Bool) (h : UnitDir e) :
    UnitDir (turnStep e t) := by
  unfold turnStep
  rcases t with _ | b
  · exact h
  · unfold UnitDir at h ⊢
    split_ifs with hdx
    · cases b
      · right; right; right; exact ⟨rfl, rfl⟩
      · right; right; left; exact ⟨rfl, rfl⟩
    · cases b
      · right; left; exact ⟨rfl, rfl⟩
      · left; exact ⟨rfl, rfl⟩

theorem bounceEnemy_max (e1 : Enemy) :
    (bounceEnemy e1).max_steps = e1.max_steps := rfl

theorem advanceEnemy_max (e1 : Enemy) :
    (advanceEnemy e1).max_steps = e1.max_steps := by
  simp only [advanceEnemy]
  split_ifs <;> rfl

theorem bounceEnemy_unit (e1 : Enemy) (h : UnitDir e1) :
    UnitDir (bounceEnemy e1) := by
  unfold UnitDir at h ⊢
  unfold bounceEnemy
  rcases h with ⟨h1, h2⟩ | ⟨h1, h2⟩ | ⟨h1, h2⟩ | ⟨h1, h2⟩ <;>
    rw [h1, h2] <;> norm_num

theorem advanceEnemy_unit (e1 : Enemy) (h : UnitDir e1) :
    UnitDir (advanceEnemy e1) := by
  simp only [advanceEnemy]
  split_ifs
  · unfold UnitDir at h ⊢
    rcases h with ⟨h1, h2⟩ | ⟨h1, h2⟩ | ⟨h1, h2⟩ | ⟨h1, h2⟩ <;>
      rw [h1, h2] <;> norm_num
  · exact h

theorem moveLoop_shape (g : Grid) (turn : ℕ → Option Bool) :
    ∀ (todo : List Enemy) (i : ℕ) (occ res : Finset (ℤ × ℤ)),
      List.Forall₂ (fun e e' =>
        e'.max_steps = e.max_steps ∧
        (UnitDir e → UnitDir e' ∧ |e'.x - e.x| + |e'.y - e.y| ≤ 1))
        todo (moveLoop g turn i occ res todo) := by
  intro todo
  induction todo with
  | nil =>
    intro i occ res
    exact List.Forall₂.nil
  | cons e rest ih =>
    intro i occ res
    obtain ⟨hx1, hy1⟩ := turnStep_pos e (turn i)
    rw [moveLoop_cons]
    split_ifs with hB
    · refine List.Forall₂.cons ⟨?_, fun hU => ⟨?_, ?_⟩⟩ (ih _ _ _)
      · rw [bounceEnemy_max, turnStep_max]
      · exact bounceEnemy_unit _ (turnStep_unit e _ hU)
      · rw [(bounceEnemy_pos _).1, (bounceEnemy_pos _).2, hx1, hy1]
        simp
    · refine List.Forall₂.cons ⟨?_, fun hU => ⟨?_, ?_⟩⟩ (ih _ _ _)
      · rw [advanceEnemy_max, turnStep_max]
      · exact advanceEnemy_unit _ (turnStep_unit e _ hU)
      · have hU1 := turnStep_unit e (turn i) hU
        rw [(advanceEnemy_pos _).1, (advanceEnemy_pos _).2, hx1, hy1]
        rcases hU1 with ⟨h1, h2⟩ | ⟨h1, h2⟩ | ⟨h1, h2⟩ | ⟨h1, h2⟩ <;>
          rw [h1, h2] <;> norm_num

/-- C10: one enemy tick leaves the maze grid untouched (it is only read),
keeps the enemy count, preserves every enemy's `max_steps`, and moves each
enemy by at most one step along a single axis (given the data-model
invariant that headings are axis-aligned unit vectors); only position,
heading and step counter change. -/
theorem C10_enemy_tick_frame (g : Grid) (order : List Enemy)
    (turn : ℕ → Option Bool) :
    (enemyTick g order turn).1 = g ∧
    (move_enemies g order turn).length = order.length ∧
    List.Forall₂ (fun e e' =>
      e'.max_steps = e.max_steps ∧
      (UnitDir e → UnitDir e' ∧ |e'.x - e.x| + |e'.y - e.y| ≤ 1))
      order (move_enemies g order turn) := by
  refine ⟨rfl, ?_, ?_⟩
  · exact (moveLoop_shape g turn order 0 _ _).length_eq.symm
  · exact moveLoop_shape g turn order 0 _ _

/-! ## Maze generator (`generate_perfect_maze_cells`)

The raw char array `raw` (all-`'#'`, then carved to `' '`, finally one
`'X'`) is embedded as a total function `ℤ × ℤ → Char`; the two
`random.randrange` draws and the per-iteration `random.shuffle(dirs)`
results are explicit parameters.  The `while stack` loop is given explicit
fuel (chosen large enough below); running out of fuel yields `none`, and we
prove the chosen fuel never runs out. -/

abbrev RawGrid := (ℤ × ℤ) → Char

/-- `raw[p] = c`, as a functional update. -/
def upd (r : RawGrid) (p : ℤ × ℤ) (c : Char) : RawGrid :=
  fun q => if q = p then c else r q

/-- `dirs = [(2, 0), (-2, 0), (0, 2), (0, -2)]`. -/
def dirs4 : List (ℤ × ℤ) := [(2, 0), (-2, 0), (0, 2), (0, -2)]

/-- `1 <= nx < width - 1 and 1 <= ny < height - 1`. -/
def interiorOk (w h : ℤ) (n : ℤ × ℤ) : Prop :=
  1 ≤ n.1 ∧ n.1 < w - 1 ∧ 1 ≤ n.2 ∧ n.2 < h - 1

instance (w h : ℤ) (n : ℤ × ℤ) : Decidable (interiorOk w h n) := by
  unfold interiorOk
  infer_instance

/-- The carve test for a 2-step neighbor: interior bounds and still wall. -/
def Carvable (w h : ℤ) (raw : RawGrid) (n : ℤ × ℤ) : Prop :=
  interiorOk w h n ∧ raw n = '#'

instance (w h : ℤ) (raw : RawGrid) (n : ℤ × ℤ) : Decidable (Carvable w h raw n) := by
  unfold Carvable
  infer_instance

/-- `for dx, dy in dirs: if carvable: ...; break` — first carvable
direction of the shuffled list, if any. -/
def findDir (w h : ℤ) (raw : RawGrid) (x y : ℤ) (ds : List (ℤ × ℤ)) :
    Option (ℤ × ℤ) :=
  ds.find? fun d => decide (Carvable w h raw (x + d.1, y + d.2))

/-- All grid coordinates, `[0, w) × [0, h)`. -/
def rect (w h : ℤ) : Finset (ℤ × ℤ) :=
  (Finset.Icc 0 (w - 1)) ×ˢ (Finset.Icc 0 (h - 1))

theorem mem_rect (w h : ℤ) (p : ℤ × ℤ) :
    p ∈ rect w h ↔ (0 ≤ p.1 ∧ p.1 < w ∧ 0 ≤ p.2 ∧ p.2 < h) := by
  unfold rect
  rw [Finset.mem_product, Finset.mem_Icc, Finset.mem_Icc]
  omega

/-- Number of wall cells on the grid (the carve-loop termination measure,
together with the stack length). -/
def wallCount (w h : ℤ) (raw : RawGrid) : ℕ :=
  ((rect w h).filter fun p => raw p = '#').card

theorem upd_self (r : RawGrid) (p : ℤ × ℤ) (c : Char) : upd r p c p = c :=
  if_pos rfl

theorem upd_ne (r : RawGrid) (p : ℤ × ℤ) (c : Char) (q : ℤ × ℤ) (h : q ≠ p) :
    upd r p c q = r q :=
  if_neg h

/-- A carve step only converts wall to floor: walls never reappear. -/
theorem carve_mono (raw : RawGrid) (m t : ℤ × ℤ) (p : ℤ × ℤ)
    (h : upd (upd raw m ' ') t ' ' p = '#') : raw p = '#' := by
  unfold upd at h
  split_ifs at h
  · exact absurd h (by decide)
  · exact absurd h (by decide)
  · exact h

theorem wallCount_carve_lt (w h : ℤ) (raw : RawGrid) (m t : ℤ × ℤ)
    (htin : t ∈ rect w h) (htw : raw t = '#') :
    wallCount w h (upd (upd raw m ' ') t ' ') < wallCount w h raw := by
  apply Finset.card_lt_card
  rw [Finset.ssubset_iff_of_subset]
  · refine ⟨t, ?_, ?_⟩
    · rw [Finset.mem_filter]
      exact ⟨htin, htw⟩
    · rw [Finset.mem_filter]
      rintro ⟨-, hc⟩
      rw [upd_self] at hc
      exact absurd hc (by decide)
  · intro p hp
    rw [Finset.mem_filter] at hp ⊢
    exact ⟨hp.1, carve_mono raw m t p hp.2⟩

/-- The `while stack:` carve loop, with explicit fuel; `n` counts the
iterations (indexing the shuffle stream `f`). -/
def carveLoop (w h : ℤ) (f : ℕ → List (ℤ × ℤ)) :
    ℕ → ℕ → RawGrid → List (ℤ × ℤ) → Option RawGrid
  | 0, _, _, _ => none
  | fuel + 1, n, raw, stack =>
    match stack with
    | [] => some raw
    | (x, y) :: rest =>
      match findDir w h raw x y (f n) with
      | some d =>
        carveLoop w h f fuel (n + 1)
          (upd (upd raw (x + d.1 / 2, y + d.2 / 2) ' ') (x + d.1, y + d.2) ' ')
          ((x + d.1, y + d.2) :: (x, y) :: rest)
      | none => carveLoop w h f fuel (n + 1) raw rest

theorem findDir_some {w h : ℤ} {raw : RawGrid} {x y : ℤ} {ds : List (ℤ × ℤ)}
    {d : ℤ × ℤ} (hfd : findDir w h raw x y ds = some d) :
    d ∈ ds ∧ Carvable w h raw (x + d.1, y + d.2) := by
  unfold findDir at hfd
  refine ⟨List.find?_mem hfd, ?_⟩
  have := List.find?_some hfd
  simpa using this

/-- `random.randrange(1, stop, 2)`: `ValueError` (modelled `none`) on an
empty range, otherwise some odd value in `[1, stop)` selected by `pick`
(every such value is selected by some `pick`). -/
def randrangeOdd (stop : ℤ) (pick : ℕ) : Option ℤ :=
  if stop ≤ 1 then none
  else some (1 + 2 * ((pick : ℤ) % (stop / 2)))

theorem randrangeOdd_spec (stop : ℤ) (pick : ℕ) (v : ℤ)
    (h : randrangeOdd stop pick = some v) :
    v % 2 = 1 ∧ 1 ≤ v ∧ v < stop := by
  unfold randrangeOdd at h
  split_ifs at h with hs
  obtain rfl : 1 + 2 * ((pick : ℤ) % (stop / 2)) = v := by
    simpa using h
  have h2 : (0 : ℤ) < stop / 2 := by omega
  have hlt : (pick : ℤ) % (stop / 2) < stop / 2 := Int.emod_lt_of_pos _ h2
  have hge : 0 ≤ (pick : ℤ) % (stop / 2) := Int.emod_nonneg _ (by omega)
  omega

/-- `dist[p] = v`, as a functional update. -/
def updI (dist : (ℤ × ℤ) → ℤ) (p : ℤ × ℤ) (v : ℤ) : (ℤ × ℤ) → ℤ :=
  fun q => if q = p then v else dist q

theorem updI_self (dist : (ℤ × ℤ) → ℤ) (p : ℤ × ℤ) (v : ℤ) : updI dist p v p = v :=
  if_pos rfl

theorem updI_ne (dist : (ℤ × ℤ) → ℤ) (p : ℤ × ℤ) (v : ℤ) (q : ℤ × ℤ)
    (h : q ≠ p) : updI dist p v q = dist q :=
  if_neg h

/-- BFS neighbor directions, in source order. -/
def bfsDirs : List (ℤ × ℤ) := [(1, 0), (-1, 0), (0, 1), (0, -1)]

/-- BFS working state: the dist array, the current farthest cell, the
remaining queue, and (ghost) the discovery order. -/
structure BfsState where
  dist : (ℤ × ℤ) → ℤ
  far : ℤ × ℤ
  q : List (ℤ × ℤ)
  disc : List (ℤ × ℤ)

/-- The body of the `for dx, dy in ...` neighbor loop of the BFS: check
bounds, floor and undiscovered; assign distance, enqueue, and update the
farthest cell on a strictly greater distance. -/
def bfsVisit (w h : ℤ) (raw : RawGrid) (x y : ℤ) (st : BfsState)
    (d : ℤ × ℤ) : BfsState :=
  let n := (x + d.1, y + d.2)
  if (0 ≤ n.1 ∧ n.1 < w ∧ 0 ≤ n.2 ∧ n.2 < h) ∧ raw n = ' ' ∧ st.dist n = -1 then
    let dist1 := updI st.dist n (st.dist (x, y) + 1)
    let far1 := if dist1 st.far < dist1 n then n else st.far
    { dist := dist1, far := far1, q := st.q ++ [n], disc := st.disc ++ [n] }
  else st

/-- The `while q:` BFS loop with explicit fuel. -/
def bfsLoop (w h : ℤ) (raw : RawGrid) :
    ℕ → BfsState → Option BfsState
  | 0, _ => none
  | fuel + 1, st =>
    match st.q with
    | [] => some st
    | (x, y) :: qrest =>
      bfsLoop w h raw fuel
        (bfsDirs.foldl (bfsVisit w h raw x y) ⟨st.dist, st.far, qrest, st.disc⟩)

/-- All the data the generator computes: dimensions (after the odd
adjustment), the carved raw grid, the BFS distance array and discovery
order, the farthest cell (the exit), and the start cell. -/
structure GenData where
  w : ℤ
  h : ℤ
  raw : RawGrid
  dist : (ℤ × ℤ) → ℤ
  disc : List (ℤ × ℤ)
  exitPos : ℤ × ℤ
  start : ℤ × ℤ

/-- `generate_perfect_maze_cells`, up to (and including) the BFS pass:
`pick1`/`pick2` select the `randrange` start cell, `f` is the per-iteration
`random.shuffle(dirs)` stream.  `none` models a raised `ValueError`
(degenerate size); the fuel amounts are proved sufficient below. -/
def generate_data (width0 height0 : ℤ) (pick1 pick2 : ℕ)
    (f : ℕ → List (ℤ × ℤ)) : Option GenData :=
  let width := if width0 % 2 = 0 then width0 + 1 else width0
  let height := if height0 % 2 = 0 then height0 + 1 else height0
  match randrangeOdd width pick1, randrangeOdd height pick2 with
  | some sx, some sy =>
    let raw0 := upd (fun _ => '#') (sx, sy) ' '
    match carveLoop width height f (2 * wallCount width height raw0 + 2) 0 raw0
        [(sx, sy)] with
    | none => none
    | some raw =>
      let dist0 := updI (fun _ => -1) (sx, sy) 0
      match bfsLoop width height raw ((rect width height).card + 2)
          ⟨dist0, (sx, sy), [(sx, sy)], [(sx, sy)]⟩ with
      | none => none
      | some st =>
        some ⟨width, height, raw, st.dist, st.disc, st.far, (sx, sy)⟩
  | _, _ => none

/-- The final cell grid: `raw` with the exit written, mapped through
`cell_from_char` row by row. -/
def rawToGrid (w h : ℤ) (raw : RawGrid) : Grid :=
  (List.range h.toNat).map fun (y : ℕ) =>
    (List.range w.toNat).map fun (x : ℕ) => cell_from_char (raw ((x : ℤ), (y : ℤ)))

/-- `generate_perfect_maze_cells(width, height) -> (grid, (sx, sy))`. -/
def generate_perfect_maze_cells (width0 height0 : ℤ) (pick1 pick2 : ℕ)
    (f : ℕ → List (ℤ × ℤ)) : Option (Grid × (ℤ × ℤ)) :=
  (generate_data width0 height0 pick1 pick2 f).map fun d =>
    (rawToGrid d.w d.h (upd d.raw d.exitPos 'X'), d.start)

/-- C6: the claim fails at width = height = 1 — the spec requires the
degenerate single-cell maze to be returned, but the code's
`random.randrange(1, 1, 2)` has an empty range and raises `ValueError`
(modelled `none`), whatever the random draws. -/
theorem C6_degenerate_size_raises (pick1 pick2 : ℕ) (f : ℕ → List (ℤ × ℤ)) :
    generate_perfect_maze_cells 1 1 pick1 pick2 f = none := by
  have h1 : ((1 : ℤ) % 2 = 0) = False := by norm_num
  unfold generate_perfect_maze_cells generate_data randrangeOdd
  simp

/-! ### The perfect-maze invariant of the carve loop -/

/-- Cells on the odd lattice (the carve nodes). -/
def IsNode (p : ℤ × ℤ) : Prop := p.1 % 2 = 1 ∧ p.2 % 2 = 1

/-- Corridor cells: exactly one even coordinate. -/
def IsCorr (p : ℤ × ℤ) : Prop :=
  (p.1 % 2 = 0 ∧ p.2 % 2 = 1) ∨ (p.1 % 2 = 1 ∧ p.2 % 2 = 0)

instance (p : ℤ × ℤ) : Decidable (IsNode p) := by unfold IsNode; infer_instance

instance (p : ℤ × ℤ) : Decidable (IsCorr p) := by unfold IsCorr; infer_instance

/-- 4-directional adjacency. -/
def Adj (p q : ℤ × ℤ) : Prop := |p.1 - q.1| + |p.2 - q.2| = 1

instance (p q : ℤ × ℤ) : Decidable (Adj p q) := by unfold Adj; infer_instance

theorem adj_iff (p q : ℤ × ℤ) : Adj p q ↔
    ((q.1 = p.1 + 1 ∧ q.2 = p.2) ∨ (q.1 = p.1 - 1 ∧ q.2 = p.2) ∨
     (q.1 = p.1 ∧ q.2 = p.2 + 1) ∨ (q.1 = p.1 ∧ q.2 = p.2 - 1)) := by
  unfold Adj
  rcases abs_cases (p.1 - q.1) with ⟨h1, h1s⟩ | ⟨h1, h1s⟩ <;>
    rcases abs_cases (p.2 - q.2) with ⟨h2, h2s⟩ | ⟨h2, h2s⟩ <;> omega

theorem Adj.symm' {p q : ℤ × ℤ} (h : Adj p q) : Adj q p := by
  rw [adj_iff] at h ⊢
  omega

/-- The non-wall cells of the raw grid, as a finite set. -/
def floorFinset (w h : ℤ) (raw : RawGrid) : Finset (ℤ × ℤ) :=
  (rect w h).filter fun p => raw p ≠ '#'

/-- Connectivity from `a` inside the floor cells (each step moves to an
adjacent floor cell). -/
def ReachF (raw : RawGrid) (a b : ℤ × ℤ) : Prop :=
  Relation.ReflTransGen (fun p q => raw q ≠ '#' ∧ Adj p q) a b

/-- The carve-loop invariant: floors live on the interior lattice, are
nodes or corridors, every floor corridor has both of its axis endpoints
floor, the stack holds floor nodes, every floor cell is reachable from the
start, and there is exactly one more floor node than floor corridors. -/
structure CarveInv (w h : ℤ) (start : ℤ × ℤ) (raw : RawGrid)
    (stack : List (ℤ × ℤ)) : Prop where
  start_floor : raw start ≠ '#'
  floor_interior : ∀ p : ℤ × ℤ, raw p ≠ '#' →
    1 ≤ p.1 ∧ p.1 ≤ w - 2 ∧ 1 ≤ p.2 ∧ p.2 ≤ h - 2
  floor_parity : ∀ p : ℤ × ℤ, raw p ≠ '#' → IsNode p ∨ IsCorr p
  corr_nbrs : ∀ p : ℤ × ℤ, raw p ≠ '#' → IsCorr p →
    (p.1 % 2 = 0 → raw (p.1 - 1, p.2) ≠ '#' ∧ raw (p.1 + 1, p.2) ≠ '#') ∧
    (p.2 % 2 = 0 → raw (p.1, p.2 - 1) ≠ '#' ∧ raw (p.1, p.2 + 1) ≠ '#')
  stack_ok : ∀ p ∈ stack, IsNode p ∧ raw p ≠ '#'
  conn : ∀ p : ℤ × ℤ, raw p ≠ '#' → ReachF raw start p
  count : ((floorFinset w h raw).filter IsCorr).card + 1 =
    ((floorFinset w h raw).filter IsNode).card

theorem node_not_corr {p : ℤ × ℤ} (hn : IsNode p) (hc : IsCorr p) : False := by
  unfold IsNode IsCorr at *
  omega

theorem upd2_floor_iff (raw : RawGrid) (m t p : ℤ × ℤ) :
    upd (upd raw m ' ') t ' ' p ≠ '#' ↔ (p = t ∨ p = m ∨ raw p ≠ '#') := by
  unfold upd
  split_ifs with h1 h2
  · simp [h1]
  · simp [h2]
  · simp [h1, h2]

theorem ReachF_mono {raw raw2 : RawGrid}
    (hmono : ∀ q, raw q ≠ '#' → raw2 q ≠ '#') {a b : ℤ × ℤ}
    (h : ReachF raw a b) : ReachF raw2 a b :=
  Relation.ReflTransGen.mono (fun p q hh => ⟨hmono q hh.1, hh.2⟩) h

/-- The generic carve step, for a unit axis vector `u` (the carved corridor
is `(x, y) + u`, the carved node `(x, y) + 2u`). -/
theorem carveInv_step_core (w h : ℤ) (start : ℤ × ℤ) (raw : RawGrid)
    (x y : ℤ) (rest : List (ℤ × ℤ)) (u : ℤ × ℤ)
    (hu : (u.1 = 1 ∧ u.2 = 0) ∨ (u.1 = -1 ∧ u.2 = 0) ∨
          (u.1 = 0 ∧ u.2 = 1) ∨ (u.1 = 0 ∧ u.2 = -1))
    (hin : interiorOk w h (x + 2 * u.1, y + 2 * u.2))
    (hwall : raw (x + 2 * u.1, y + 2 * u.2) = '#')
    (hinv : CarveInv w h start raw ((x, y) :: rest)) :
    CarveInv w h start
      (upd (upd raw (x + u.1, y + u.2) ' ') (x + 2 * u.1, y + 2 * u.2) ' ')
      ((x + 2 * u.1, y + 2 * u.2) :: (x, y) :: rest) := by
  obtain ⟨htop_node, htop_floor⟩ := hinv.stack_ok (x, y) (List.mem_cons_self _ _)
  have hxyint := hinv.floor_interior (x, y) htop_floor
  have hxy_node : x % 2 = 1 ∧ y % 2 = 1 := htop_node
  unfold interiorOk at hin
  simp only at hin hxyint
  set m : ℤ × ℤ := (x + u.1, y + u.2) with hm_def
  set t : ℤ × ℤ := (x + 2 * u.1, y + 2 * u.2) with ht_def
  have hm1 : m.1 = x + u.1 := rfl
  have hm2 : m.2 = y + u.2 := rfl
  have ht1 : t.1 = x + 2 * u.1 := rfl
  have ht2 : t.2 = y + 2 * u.2 := rfl
  have ht_node : IsNode t := by
    unfold IsNode
    rw [ht1, ht2]
    omega
  have hm_corr : IsCorr m := by
    unfold IsCorr
    rw [hm1, hm2]
    omega
  have hmt : m ≠ t := by
    intro hh
    have h1 := congrArg Prod.fst hh
    have h2 := congrArg Prod.snd hh
    rw [hm1, ht1] at h1
    rw [hm2, ht2] at h2
    omega
  have htxy : t ≠ (x, y) := by
    intro hh
    have h1 := congrArg Prod.fst hh
    have h2 := congrArg Prod.snd hh
    simp only [ht1, ht2] at h1 h2
    omega
  have hmxy : m ≠ (x, y) := by
    intro hh
    have h1 := congrArg Prod.fst hh
    have h2 := congrArg Prod.snd hh
    simp only [hm1, hm2] at h1 h2
    omega
  -- the corridor cell must still be wall
  have hm_wall : raw m = '#' := by
    by_contra hmf
    have hcn := hinv.corr_nbrs m hmf hm_corr
    rcases hu with ⟨hu1, hu2⟩ | ⟨hu1, hu2⟩ | ⟨hu1, hu2⟩ | ⟨hu1, hu2⟩
    · have := (hcn.1 (by rw [hm1]; omega)).2
      have he : (m.1 + 1, m.2) = t := by
        rw [Prod.ext_iff, hm1, hm2, ht1, ht2]
        constructor <;> omega
      rw [he] at this
      exact this hwall
    · have := (hcn.1 (by rw [hm1]; omega)).1
      have he : (m.1 - 1, m.2) = t := by
        rw [Prod.ext_iff, hm1, hm2, ht1, ht2]
        constructor <;> omega
      rw [he] at this
      exact this hwall
    · have := (hcn.2 (by rw [hm2]; omega)).2
      have he : (m.1, m.2 + 1) = t := by
        rw [Prod.ext_iff, hm1, hm2, ht1, ht2]
        constructor <;> omega
      rw [he] at this
      exact this hwall
    · have := (hcn.2 (by rw [hm2]; omega)).1
      have he : (m.1, m.2 - 1) = t := by
        rw [Prod.ext_iff, hm1, hm2, ht1, ht2]
        constructor <;> omega
      rw [he] at this
      exact this hwall
  have ht_wall : raw t = '#' := hwall
  have hmono : ∀ q, raw q ≠ '#' → upd (upd raw m ' ') t ' ' q ≠ '#' := fun q hq =>
    (upd2_floor_iff raw m t q).mpr (Or.inr (Or.inr hq))
  have hfl := upd2_floor_iff raw m t
  -- interior bounds for m and t
  have hm_int : 1 ≤ m.1 ∧ m.1 ≤ w - 2 ∧ 1 ≤ m.2 ∧ m.2 ≤ h - 2 := by
    rw [hm1, hm2]
    rcases hu with ⟨hu1, hu2⟩ | ⟨hu1, hu2⟩ | ⟨hu1, hu2⟩ | ⟨hu1, hu2⟩ <;> omega
  have ht_int : 1 ≤ t.1 ∧ t.1 ≤ w - 2 ∧ 1 ≤ t.2 ∧ t.2 ≤ h - 2 := by
    rw [ht1, ht2]
    omega
  have hadj_xym : Adj (x, y) m := by
    rw [adj_iff]
    simp only [hm1, hm2]
    rcases hu with ⟨hu1, hu2⟩ | ⟨hu1, hu2⟩ | ⟨hu1, hu2⟩ | ⟨hu1, hu2⟩ <;> omega
  have hadj_mt : Adj m t := by
    rw [adj_iff]
    simp only [hm1, hm2, ht1, ht2]
    rcases hu with ⟨hu1, hu2⟩ | ⟨hu1, hu2⟩ | ⟨hu1, hu2⟩ | ⟨hu1, hu2⟩ <;> omega
  refine ⟨?_, ?_, ?_, ?_, ?_, ?_, ?_⟩
  · exact hmono start hinv.start_floor
  · intro p hp
    rcases (hfl p).mp hp with rfl | rfl | hp'
    · exact ht_int
    · exact hm_int
    · exact hinv.floor_interior p hp'
  · intro p hp
    rcases (hfl p).mp hp with rfl | rfl | hp'
    · exact Or.inl ht_node
    · exact Or.inr hm_corr
    · exact hinv.floor_parity p hp'
  · intro p hp hpc
    rcases (hfl p).mp hp with rfl | rfl | hp'
    · exact absurd hpc (fun hc => node_not_corr ht_node hc)
    · constructor
      · intro hev
        rcases hu with ⟨hu1, hu2⟩ | ⟨hu1, hu2⟩ | ⟨hu1, hu2⟩ | ⟨hu1, hu2⟩
        · constructor
          · have he : (m.1 - 1, m.2) = (x, y) := by
              rw [Prod.ext_iff, hm1, hm2]
              constructor <;> simp <;> omega
            rw [he]
            exact hmono _ htop_floor
          · have he : (m.1 + 1, m.2) = t := by
              rw [Prod.ext_iff, hm1, hm2, ht1, ht2]
              constructor <;> simp <;> omega
            rw [he]
            exact (hfl t).mpr (Or.inl rfl)
        · constructor
          · have he : (m.1 - 1, m.2) = t := by
              rw [Prod.ext_iff, hm1, hm2, ht1, ht2]
              constructor <;> simp <;> omega
            rw [he]
            exact (hfl t).mpr (Or.inl rfl)
          · have he : (m.1 + 1, m.2) = (x, y) := by
              rw [Prod.ext_iff, hm1, hm2]
              constructor <;> simp <;> omega
            rw [he]
            exact hmono _ htop_floor
        · exact absurd hev (by rw [hm1]; omega)
        · exact absurd hev (by rw [hm1]; omega)
      · intro hev
        rcases hu with ⟨hu1, hu2⟩ | ⟨hu1, hu2⟩ | ⟨hu1, hu2⟩ | ⟨hu1, hu2⟩
        · exact absurd hev (by rw [hm2]; omega)
        · exact absurd hev (by rw [hm2]; omega)
        · constructor
          · have he : (m.1, m.2 - 1) = (x, y) := by
              rw [Prod.ext_iff, hm1, hm2]
              constructor <;> simp <;> omega
            rw [he]
            exact hmono _ htop_floor
          · have he : (m.1, m.2 + 1) = t := by
              rw [Prod.ext_iff, hm1, hm2, ht1, ht2]
              constructor <;> simp <;> omega
            rw [he]
            exact (hfl t).mpr (Or.inl rfl)
        · constructor
          · have he : (m.1, m.2 - 1) = t := by
              rw [Prod.ext_iff, hm1, hm2, ht1, ht2]
              constructor <;> simp <;> omega
            rw [he]
            exact (hfl t).mpr (Or.inl rfl)
          · have he : (m.1, m.2 + 1) = (x, y) := by
              rw [Prod.ext_iff, hm1, hm2]
              constructor <;> simp <;> omega
            rw [he]
            exact hmono _ htop_floor
    · have hcn := hinv.corr_nbrs p hp' hpc
      exact ⟨fun hev => ⟨hmono _ (hcn.1 hev).1, hmono _ (hcn.1 hev).2⟩,
             fun hev => ⟨hmono _ (hcn.2 hev).1, hmono _ (hcn.2 hev).2⟩⟩
  · intro p hp
    rcases List.mem_cons.mp hp with rfl | hp'
    · exact ⟨ht_node, (hfl t).mpr (Or.inl rfl)⟩
    · obtain ⟨hn, hf⟩ := hinv.stack_ok p hp'
      exact ⟨hn, hmono p hf⟩
  · intro p hp
    have hreach_m : ReachF (upd (upd raw m ' ') t ' ') start m := by
      refine Relation.ReflTransGen.tail ?_ ⟨(hfl m).mpr (Or.inr (Or.inl rfl)), hadj_xym⟩
      exact ReachF_mono hmono (hinv.conn (x, y) htop_floor)
    rcases (hfl p).mp hp with rfl | rfl | hp'
    · exact Relation.ReflTransGen.tail hreach_m ⟨(hfl t).mpr (Or.inl rfl), hadj_mt⟩
    · exact hreach_m
    · exact ReachF_mono hmono (hinv.conn p hp')
  · have hrect_t : t ∈ rect w h := by
      rw [mem_rect]
      omega
    have hrect_m : m ∈ rect w h := by
      rw [mem_rect]
      omega
    have hff : floorFinset w h (upd (upd raw m ' ') t ' ') =
        insert t (insert m (floorFinset w h raw)) := by
      ext p
      simp only [floorFinset, Finset.mem_filter, Finset.mem_insert]
      constructor
      · rintro ⟨hpr, hpf⟩
        rcases (hfl p).mp hpf with rfl | rfl | hp'
        · exact Or.inl rfl
        · exact Or.inr (Or.inl rfl)
        · exact Or.inr (Or.inr ⟨hpr, hp'⟩)
      · rintro (rfl | rfl | ⟨hpr, hpf⟩)
        · exact ⟨hrect_t, (hfl t).mpr (Or.inl rfl)⟩
        · exact ⟨hrect_m, (hfl m).mpr (Or.inr (Or.inl rfl))⟩
        · exact ⟨hpr, hmono p hpf⟩
    have ht_notin : t ∉ floorFinset w h raw := by
      simp only [floorFinset, Finset.mem_filter]
      rintro ⟨-, hc⟩
      exact hc ht_wall
    have hm_notin : m ∉ floorFinset w h raw := by
      simp only [floorFinset, Finset.mem_filter]
      rintro ⟨-, hc⟩
      exact hc hm_wall
    rw [hff]
    rw [Finset.filter_insert, Finset.filter_insert]
    rw [if_neg (fun hc => node_not_corr ht_node hc)]
    rw [if_pos hm_corr]
    rw [Finset.filter_insert, Finset.filter_insert]
    rw [if_pos ht_node]
    rw [if_neg (fun hc => node_not_corr hc hm_corr)]
    rw [Finset.card_insert_of_not_mem (fun hc => hm_notin (Finset.mem_of_mem_filter m hc))]
    rw [Finset.card_insert_of_not_mem (fun hc => ht_notin (Finset.mem_of_mem_filter t hc))]
    have := hinv.count
    omega

theorem carveInv_step (w h : ℤ) (start : ℤ × ℤ) (raw : RawGrid)
    (x y : ℤ) (rest : List (ℤ × ℤ)) (d : ℤ × ℤ) (hd : d ∈ dirs4)
    (hc : Carvable w h raw (x + d.1, y + d.2))
    (hinv : CarveInv w h start raw ((x, y) :: rest)) :
    CarveInv w h start
      (upd (upd raw (x + d.1 / 2, y + d.2 / 2) ' ') (x + d.1, y + d.2) ' ')
      ((x + d.1, y + d.2) :: (x, y) :: rest) := by
  obtain ⟨hin, hwall⟩ := hc
  have hd4 : d = ((2 : ℤ), (0 : ℤ)) ∨ d = (-2, 0) ∨ d = (0, 2) ∨ d = (0, -2) := by
    simpa [dirs4] using hd
  rcases hd4 with rfl | rfl | rfl | rfl
  · exact carveInv_step_core w h start raw x y rest (1, 0)
      (Or.inl ⟨rfl, rfl⟩) hin hwall hinv
  · exact carveInv_step_core w h start raw x y rest (-1, 0)
      (Or.inr (Or.inl ⟨rfl, rfl⟩)) hin hwall hinv
  · exact carveInv_step_core w h start raw x y rest (0, 1)
      (Or.inr (Or.inr (Or.inl ⟨rfl, rfl⟩))) hin hwall hinv
  · exact carveInv_step_core w h start raw x y rest (0, -1)
      (Or.inr (Or.inr (Or.inr ⟨rfl, rfl⟩))) hin hwall hinv

theorem carveInv_init (w h : ℤ) (sx sy : ℤ)
    (hw : w % 2 = 1) (hh : h % 2 = 1)
    (hsx : sx % 2 = 1 ∧ 1 ≤ sx ∧ sx < w)
    (hsy : sy % 2 = 1 ∧ 1 ≤ sy ∧ sy < h) :
    CarveInv w h (sx, sy) (upd (fun _ => '#') (sx, sy) ' ') [(sx, sy)] := by
  have hsx2 : sx ≤ w - 2 := by omega
  have hsy2 : sy ≤ h - 2 := by omega
  have hfloor : ∀ p : ℤ × ℤ,
      upd (fun _ => '#') (sx, sy) ' ' p ≠ '#' ↔ p = (sx, sy) := by
    intro p
    unfold upd
    split_ifs with h1
    · simp [h1]
    · simp [h1]
  have hnode : IsNode (sx, sy) := ⟨hsx.1, hsy.1⟩
  refine ⟨?_, ?_, ?_, ?_, ?_, ?_, ?_⟩
  · rw [hfloor]
  · intro p hp
    obtain rfl := (hfloor p).mp hp
    exact ⟨by omega, by omega, by omega, by omega⟩
  · intro p hp
    obtain rfl := (hfloor p).mp hp
    exact Or.inl hnode
  · intro p hp hpc
    obtain rfl := (hfloor p).mp hp
    exact absurd hpc (fun hc => node_not_corr hnode hc)
  · intro p hp
    rw [List.mem_singleton] at hp
    subst hp
    exact ⟨hnode, (hfloor _).mpr rfl⟩
  · intro p hp
    obtain rfl := (hfloor p).mp hp
    exact Relation.ReflTransGen.refl
  · have hfs : floorFinset w h (upd (fun _ => '#') (sx, sy) ' ') = {(sx, sy)} := by
      ext p
      simp only [floorFinset, Finset.mem_filter, Finset.mem_singleton, hfloor p]
      constructor
      · rintro ⟨-, rfl⟩
        rfl
      · rintro rfl
        refine ⟨?_, rfl⟩
        rw [mem_rect]
        exact ⟨by omega, by omega, by omega, by omega⟩
    rw [hfs, Finset.filter_singleton, Finset.filter_singleton]
    rw [if_neg (fun hc => node_not_corr hnode hc), if_pos hnode]
    simp

theorem carveLoop_cons (w h : ℤ) (f : ℕ → List (ℤ × ℤ)) (fuel n : ℕ)
    (raw : RawGrid) (x y : ℤ) (rest : List (ℤ × ℤ)) :
    carveLoop w h f (fuel + 1) n raw ((x, y) :: rest) =
      match findDir w h raw x y (f n) with
      | some d =>
        carveLoop w h f fuel (n + 1)
          (upd (upd raw (x + d.1 / 2, y + d.2 / 2) ' ') (x + d.1, y + d.2) ' ')
          ((x + d.1, y + d.2) :: (x, y) :: rest)
      | none => carveLoop w h f fuel (n + 1) raw rest := rfl

/-- The carve loop, run with more fuel than twice the wall count plus the
stack size, completes and establishes the perfect-maze invariant with an
empty stack. -/
theorem carve_master (w h : ℤ) (start : ℤ × ℤ) (f : ℕ → List (ℤ × ℤ))
    (hf : ∀ n, ∀ d ∈ f n, d ∈ dirs4) :
    ∀ (fuel n : ℕ) (raw : RawGrid) (stack : List (ℤ × ℤ)),
      2 * wallCount w h raw + stack.length < fuel →
      CarveInv w h start raw stack →
      ∃ raw', carveLoop w h f fuel n raw stack = some raw' ∧
        CarveInv w h start raw' [] := by
  intro fuel
  induction fuel with
  | zero =>
    intro n raw stack hmu hinv
    omega
  | succ fuel ih =>
    intro n raw stack hmu hinv
    cases stack with
    | nil =>
      exact ⟨raw, rfl, hinv.start_floor, hinv.floor_interior, hinv.floor_parity,
        hinv.corr_nbrs, by simp, hinv.conn, hinv.count⟩
    | cons top rest =>
      obtain ⟨x, y⟩ := top
      rw [carveLoop_cons]
      cases hfd : findDir w h raw x y (f n) with
      | some d =>
        obtain ⟨hdmem, hcarv⟩ := findDir_some hfd
        have hinv' := carveInv_step w h start raw x y rest d (hf n d hdmem) hcarv hinv
        have htrect : (x + d.1, y + d.2) ∈ rect w h := by
          obtain ⟨hi, -⟩ := hcarv
          unfold interiorOk at hi
          rw [mem_rect]
          simp only at hi ⊢
          omega
        have hwc := wallCount_carve_lt w h raw (x + d.1 / 2, y + d.2 / 2)
          (x + d.1, y + d.2) htrect hcarv.2
        have hmu' : 2 * wallCount w h
            (upd (upd raw (x + d.1 / 2, y + d.2 / 2) ' ') (x + d.1, y + d.2) ' ') +
            ((x + d.1, y + d.2) :: (x, y) :: rest).length < fuel := by
          simp only [List.length_cons] at hmu ⊢
          omega
        exact ih (n + 1) _ _ hmu' hinv'
      | none =>
        have hinv' : CarveInv w h start raw rest :=
          ⟨hinv.start_floor, hinv.floor_interior, hinv.floor_parity,
           hinv.corr_nbrs, fun p hp => hinv.stack_ok p (List.mem_cons_of_mem _ hp),
           hinv.conn, hinv.count⟩
        have hmu' : 2 * wallCount w h raw + rest.length < fuel := by
          simp only [List.length_cons] at hmu
          omega
        exact ih (n + 1) raw rest hmu' hinv'

/-! ### Counting edges of the carved floor graph -/

/-- The two axis endpoints of a corridor cell (the floor cells it links). -/
def corrEnds (m : ℤ × ℤ) : (ℤ × ℤ) × (ℤ × ℤ) :=
  if m.1 % 2 = 0 then ((m.1 - 1, m.2), (m.1 + 1, m.2))
  else ((m.1, m.2 - 1), (m.1, m.2 + 1))

/-- Ordered adjacent floor pairs. -/
def arcFinset (w h : ℤ) (raw : RawGrid) : Finset ((ℤ × ℤ) × (ℤ × ℤ)) :=
  ((floorFinset w h raw) ×ˢ (floorFinset w h raw)).filter fun pq => Adj pq.1 pq.2

/-- Undirected edges of the floor graph (each adjacent unordered pair once). -/
def edgeFinset (w h : ℤ) (raw : RawGrid) : Finset (Sym2 (ℤ × ℤ)) :=
  (arcFinset w h raw).image fun pq => s(pq.1, pq.2)

theorem corrEnds_node {m : ℤ × ℤ} (hm : IsCorr m) :
    IsNode (corrEnds m).1 ∧ IsNode (corrEnds m).2 := by
  unfold corrEnds IsNode
  unfold IsCorr at hm
  split_ifs with he
  · simp only
    omega
  · simp only
    omega

theorem corrEnds_adj {m : ℤ × ℤ} :
    Adj m (corrEnds m).1 ∧ Adj m (corrEnds m).2 := by
  unfold corrEnds
  split_ifs with he <;>
    constructor <;>
    · rw [adj_iff]
      dsimp only
      omega

theorem corrEnds_ne {m : ℤ × ℤ} :
    (corrEnds m).1 ≠ (corrEnds m).2 ∧ m ≠ (corrEnds m).1 ∧ m ≠ (corrEnds m).2 := by
  unfold corrEnds
  split_ifs with he <;>
    refine ⟨fun hc => ?_, fun hc => ?_, fun hc => ?_⟩ <;>
    · rw [Prod.ext_iff] at hc
      simp only at hc
      omega

/-- Under the invariant, the floor neighbours of a floor corridor are
exactly its two axis endpoints. -/
theorem corr_floor_nbrs (w h : ℤ) (start : ℤ × ℤ) (raw : RawGrid)
    (hinv : CarveInv w h start raw []) {m q : ℤ × ℤ}
    (hmf : raw m ≠ '#') (hmc : IsCorr m) (hqf : raw q ≠ '#') (hadj : Adj m q) :
    q = (corrEnds m).1 ∨ q = (corrEnds m).2 := by
  have hq := hinv.floor_parity q hqf
  unfold IsCorr at hmc
  rw [adj_iff] at hadj
  unfold corrEnds
  rcases hmc with ⟨he, ho⟩ | ⟨ho, he⟩
  · rw [if_pos he]
    rcases hadj with ⟨h1, h2⟩ | ⟨h1, h2⟩ | ⟨h1, h2⟩ | ⟨h1, h2⟩
    · right
      rw [Prod.ext_iff]
      exact ⟨h1, h2⟩
    · left
      rw [Prod.ext_iff]
      exact ⟨h1, h2⟩
    · exfalso
      rcases hq with ⟨hq1, hq2⟩ | ⟨hq1, hq2⟩ | ⟨hq1, hq2⟩
      · omega
      · omega
      · omega
    · exfalso
      rcases hq with ⟨hq1, hq2⟩ | ⟨hq1, hq2⟩ | ⟨hq1, hq2⟩
      · omega
      · omega
      · omega
  · rw [if_neg (by omega)]
    rcases hadj with ⟨h1, h2⟩ | ⟨h1, h2⟩ | ⟨h1, h2⟩ | ⟨h1, h2⟩
    · exfalso
      rcases hq with ⟨hq1, hq2⟩ | ⟨hq1, hq2⟩ | ⟨hq1, hq2⟩
      · omega
      · omega
      · omega
    · exfalso
      rcases hq with ⟨hq1, hq2⟩ | ⟨hq1, hq2⟩ | ⟨hq1, hq2⟩
      · omega
      · omega
      · omega
    · right
      rw [Prod.ext_iff]
      exact ⟨h1, h2⟩
    · left
      rw [Prod.ext_iff]
      exact ⟨h1, h2⟩

theorem arc_one_corr (w h : ℤ) (start : ℤ × ℤ) (raw : RawGrid)
    (hinv : CarveInv w h start raw []) {p q : ℤ × ℤ}
    (hpf : raw p ≠ '#') (hqf : raw q ≠ '#') (hadj : Adj p q) :
    (IsCorr p ∧ IsNode q) ∨ (IsNode p ∧ IsCorr q) := by
  have hp := hinv.floor_parity p hpf
  have hq := hinv.floor_parity q hqf
  rw [adj_iff] at hadj
  unfold IsNode IsCorr at hp hq ⊢
  rcases hp with hp | hp <;> rcases hq with hq | hq <;> omega

theorem corrEnds_floor (w h : ℤ) (start : ℤ × ℤ) (raw : RawGrid)
    (hinv : CarveInv w h start raw []) {m : ℤ × ℤ}
    (hmf : raw m ≠ '#') (hmc : IsCorr m) :
    raw (corrEnds m).1 ≠ '#' ∧ raw (corrEnds m).2 ≠ '#' := by
  have hcn := hinv.corr_nbrs m hmf hmc
  unfold corrEnds
  split_ifs with he
  · exact hcn.1 he
  · have he2 : m.2 % 2 = 0 := by
      unfold IsCorr at hmc
      omega
    exact hcn.2 he2

theorem floor_mem_F (w h : ℤ) (start : ℤ × ℤ) (raw : RawGrid)
    (hinv : CarveInv w h start raw []) {p : ℤ × ℤ} (hpf : raw p ≠ '#') :
    p ∈ floorFinset w h raw := by
  have hi := hinv.floor_interior p hpf
  simp only [floorFinset, Finset.mem_filter, mem_rect]
  exact ⟨⟨by omega, by omega, by omega, by omega⟩, hpf⟩

/-- The carved floor graph has exactly (floor count − 1) undirected edges:
each edge pairs a corridor with one of its two endpoints. -/
theorem edge_count (w h : ℤ) (start : ℤ × ℤ) (raw : RawGrid)
    (hinv : CarveInv w h start raw []) :
    (edgeFinset w h raw).card + 1 = (floorFinset w h raw).card := by
  classical
  have floor_of_mem : ∀ p ∈ floorFinset w h raw, raw p ≠ '#' := by
    intro p hp
    simp only [floorFinset, Finset.mem_filter] at hp
    exact hp.2
  have hCN : ((floorFinset w h raw).filter IsCorr).card +
      ((floorFinset w h raw).filter IsNode).card = (floorFinset w h raw).card := by
    have hN_eq : (floorFinset w h raw).filter IsNode =
        (floorFinset w h raw).filter (fun p => ¬ IsCorr p) := by
      ext p
      simp only [Finset.mem_filter]
      constructor
      · rintro ⟨hf, hn⟩
        exact ⟨hf, fun hc => node_not_corr hn hc⟩
      · rintro ⟨hf, hnc⟩
        rcases hinv.floor_parity p (floor_of_mem p hf) with hn | hc
        · exact ⟨hf, hn⟩
        · exact absurd hc hnc
    rw [hN_eq]
    exact Finset.filter_card_add_filter_neg_card_eq_card IsCorr
  have hedge : edgeFinset w h raw =
      ((floorFinset w h raw).filter IsCorr).biUnion
        (fun m => {s(m, (corrEnds m).1), s(m, (corrEnds m).2)}) := by
    ext e
    simp only [edgeFinset, arcFinset, Finset.mem_image, Finset.mem_filter,
      Finset.mem_product, Finset.mem_biUnion, Finset.mem_insert,
      Finset.mem_singleton]
    constructor
    · rintro ⟨⟨p, q⟩, ⟨⟨hpF, hqF⟩, hadj⟩, rfl⟩
      simp only at hadj
      have hpf := floor_of_mem p hpF
      have hqf := floor_of_mem q hqF
      rcases arc_one_corr w h start raw hinv hpf hqf hadj with ⟨hpc, -⟩ | ⟨-, hqc⟩
      · refine ⟨p, ⟨hpF, hpc⟩, ?_⟩
        rcases corr_floor_nbrs w h start raw hinv hpf hpc hqf hadj with rfl | rfl
        · left
          rfl
        · right
          rfl
      · refine ⟨q, ⟨hqF, hqc⟩, ?_⟩
        rcases corr_floor_nbrs w h start raw hinv hqf hqc hpf hadj.symm'
            with rfl | rfl
        · left
          exact Sym2.eq_swap
        · right
          exact Sym2.eq_swap
    · rintro ⟨m, hmC, rfl | rfl⟩
      · obtain ⟨hmF, hmc⟩ := hmC
        have hmf := floor_of_mem m hmF
        have hef := (corrEnds_floor w h start raw hinv hmf hmc).1
        exact ⟨(m, (corrEnds m).1),
          ⟨⟨hmF, floor_mem_F w h start raw hinv hef⟩, corrEnds_adj.1⟩, rfl⟩
      · obtain ⟨hmF, hmc⟩ := hmC
        have hmf := floor_of_mem m hmF
        have hef := (corrEnds_floor w h start raw hinv hmf hmc).2
        exact ⟨(m, (corrEnds m).2),
          ⟨⟨hmF, floor_mem_F w h start raw hinv hef⟩, corrEnds_adj.2⟩, rfl⟩
  have hdisj : ∀ m ∈ (floorFinset w h raw).filter IsCorr,
      ∀ m' ∈ (floorFinset w h raw).filter IsCorr, m ≠ m' →
      Disjoint ({s(m, (corrEnds m).1), s(m, (corrEnds m).2)} : Finset (Sym2 (ℤ × ℤ)))
        {s(m', (corrEnds m').1), s(m', (corrEnds m').2)} := by
    intro m hm m' hm' hne
    have hmc := (Finset.mem_filter.mp hm).2
    have hmc' := (Finset.mem_filter.mp hm').2
    rw [Finset.disjoint_left]
    intro e he he'
    simp only [Finset.mem_insert, Finset.mem_singleton] at he he'
    have hkey : ∀ a b : ℤ × ℤ, IsNode a → IsNode b →
        s(m, a) = s(m', b) → False := by
      intro a b hna hnb hab
      rcases Sym2.eq_iff.mp hab with ⟨h1, -⟩ | ⟨h1, -⟩
      · exact hne h1
      · subst h1
        exact node_not_corr hnb hmc
    rcases he with rfl | rfl <;> rcases he' with hee | hee
    · exact hkey _ _ (corrEnds_node hmc).1 (corrEnds_node hmc').1 hee
    · exact hkey _ _ (corrEnds_node hmc).1 (corrEnds_node hmc').2 hee
    · exact hkey _ _ (corrEnds_node hmc).2 (corrEnds_node hmc').1 hee
    · exact hkey _ _ (corrEnds_node hmc).2 (corrEnds_node hmc').2 hee
  have hpair : ∀ m : ℤ × ℤ, IsCorr m →
      ({s(m, (corrEnds m).1), s(m, (corrEnds m).2)} : Finset (Sym2 (ℤ × ℤ))).card = 2 := by
    intro m hmc
    rw [Finset.card_insert_of_not_mem, Finset.card_singleton]
    rw [Finset.mem_singleton]
    intro hc
    rcases Sym2.eq_iff.mp hc with ⟨-, h2⟩ | ⟨h1, -⟩
    · exact corrEnds_ne.1 h2
    · exact corrEnds_ne.2.2 h1
  rw [hedge, Finset.card_biUnion hdisj]
  rw [Finset.sum_congr rfl (fun m hm => hpair m (Finset.mem_filter.mp hm).2)]
  rw [Finset.sum_const, smul_eq_mul]
  have hcount := hinv.count
  omega

/-- Pairwise connectivity of the floor set, from start-reachability. -/
theorem conn_pairwise (w h : ℤ) (start : ℤ × ℤ) (raw : RawGrid)
    (hinv : CarveInv w h start raw []) :
    ∀ p q : ℤ × ℤ, p ∈ floorFinset w h raw → q ∈ floorFinset w h raw →
      Relation.ReflTransGen
        (fun a b => a ∈ floorFinset w h raw ∧ b ∈ floorFinset w h raw ∧ Adj a b)
        p q := by
  have floor_of_mem : ∀ p ∈ floorFinset w h raw, raw p ≠ '#' := by
    intro p hp
    simp only [floorFinset, Finset.mem_filter] at hp
    exact hp.2
  have hend : ∀ p : ℤ × ℤ, ReachF raw start p → raw p ≠ '#' := by
    intro p hr
    induction hr with
    | refl => exact hinv.start_floor
    | tail hab hbc ih => exact hbc.1
  have hlift : ∀ p : ℤ × ℤ, ReachF raw start p →
      Relation.ReflTransGen
        (fun a b => a ∈ floorFinset w h raw ∧ b ∈ floorFinset w h raw ∧ Adj a b)
        start p := by
    intro p hr
    induction hr with
    | refl => exact Relation.ReflTransGen.refl
    | tail hab hbc ih =>
      rename_i b c
      exact ih.tail ⟨floor_mem_F w h start raw hinv (hend b hab),
        floor_mem_F w h start raw hinv hbc.1, hbc.2⟩
  intro p q hp hq
  have h1 := hlift p (hinv.conn p (floor_of_mem p hp))
  have h2 := hlift q (hinv.conn q (floor_of_mem q hq))
  have hsym : Symmetric
      (fun a b => a ∈ floorFinset w h raw ∧ b ∈ floorFinset w h raw ∧ Adj a b) :=
    fun a b hab => ⟨hab.2.1, hab.1, hab.2.2.symm'⟩
  exact Relation.ReflTransGen.trans
    ((Relation.ReflTransGen.symmetric hsym) h1) h2

/-! ### BFS invariants (exit placement) -/

/-- Unreached-cell count, the BFS termination measure component. -/
def unvisited (w h : ℤ) (dist : (ℤ × ℤ) → ℤ) : ℕ :=
  ((rect w h).filter fun p => dist p = -1).card

/-- Discovery index (position in the ghost discovery list). -/
def idxOf {α : Type} [DecidableEq α] (l : List α) (a : α) : ℕ :=
  List.indexOf a l

theorem idxOf_append_left {α : Type} [DecidableEq α] {l1 l2 : List α} {a : α}
    (h : a ∈ l1) : idxOf (l1 ++ l2) a = idxOf l1 a :=
  List.indexOf_append_of_mem h

theorem idxOf_last {α : Type} [DecidableEq α] {l : List α} {a : α} (h : a ∉ l) :
    idxOf (l ++ [a]) a = l.length := by
  unfold idxOf
  rw [List.indexOf_append_of_not_mem h, List.indexOf_cons_self]
  omega

theorem idxOf_lt_length {α : Type} [DecidableEq α] {l : List α} {a : α}
    (h : a ∈ l) : idxOf l a < l.length :=
  List.indexOf_lt_length.mpr h

/-- The BFS loop invariant.  `xy` is the cell currently being expanded
(its closure obligation is deferred until its four neighbours have been
processed); `disc` records discovery (assignment) order. -/
structure BfsAux (w h : ℤ) (raw : RawGrid) (start xy : ℤ × ℤ)
    (st : BfsState) : Prop where
  dist_lb : ∀ p : ℤ × ℤ, st.dist p = -1 ∨ 0 ≤ st.dist p
  assigned_iff : ∀ p : ℤ × ℤ, 0 ≤ st.dist p ↔ p ∈ st.disc
  disc_nodup : st.disc.Nodup
  q_nodup : st.q.Nodup
  q_sub : ∀ p ∈ st.q, p ∈ st.disc
  disc_ok : ∀ p ∈ st.disc,
    p = start ∨ (raw p = ' ' ∧ 0 ≤ p.1 ∧ p.1 < w ∧ 0 ≤ p.2 ∧ p.2 < h)
  reach : ∀ p ∈ st.disc, ReachF raw start p
  far_disc : st.far ∈ st.disc
  far_max : ∀ p ∈ st.disc, st.dist p ≤ st.dist st.far
  far_first : ∀ p ∈ st.disc, st.dist st.far ≤ st.dist p →
    idxOf st.disc st.far ≤ idxOf st.disc p
  closedX : ∀ p ∈ st.disc, p ∉ st.q → p ≠ xy → ∀ d ∈ bfsDirs,
    (0 ≤ p.1 + d.1 ∧ p.1 + d.1 < w ∧ 0 ≤ p.2 + d.2 ∧ p.2 + d.2 < h) →
    raw (p.1 + d.1, p.2 + d.2) = ' ' → 0 ≤ st.dist (p.1 + d.1, p.2 + d.2)

/-- The full BFS invariant: no exempt cell. -/
def BfsInvF (w h : ℤ) (raw : RawGrid) (start : ℤ × ℤ) (st : BfsState) : Prop :=
  ∀ xy : ℤ × ℤ, BfsAux w h raw start xy st

theorem bfsDirs_adj {x y : ℤ} {d : ℤ × ℤ} (hd : d ∈ bfsDirs) :
    Adj (x, y) (x + d.1, y + d.2) := by
  have hd4 : d = ((1 : ℤ), (0 : ℤ)) ∨ d = (-1, 0) ∨ d = (0, 1) ∨ d = (0, -1) := by
    simpa [bfsDirs] using hd
  rw [adj_iff]
  rcases hd4 with rfl | rfl | rfl | rfl <;> dsimp only <;> omega


theorem bfsVisit_step (w h : ℤ) (raw : RawGrid) (start : ℤ × ℤ) (x y : ℤ)
    (st : BfsState) (d : ℤ × ℤ) (hd : d ∈ bfsDirs)
    (haux : BfsAux w h raw start (x, y) st)
    (hxyd : (x, y) ∈ st.disc) (hxyq : (x, y) ∉ st.q) (hxy0 : 0 ≤ st.dist (x, y)) :
    BfsAux w h raw start (x, y) (bfsVisit w h raw x y st d) ∧
    unvisited w h (bfsVisit w h raw x y st d).dist +
      (bfsVisit w h raw x y st d).q.length ≤
      unvisited w h st.dist + st.q.length ∧
    (∀ p : ℤ × ℤ, 0 ≤ st.dist p → (bfsVisit w h raw x y st d).dist p = st.dist p) ∧
    (∀ p ∈ st.disc, p ∈ (bfsVisit w h raw x y st d).disc) ∧
    (∀ p ∈ (bfsVisit w h raw x y st d).q, p ∈ st.q ∨ p ∉ st.disc) ∧
    ((0 ≤ x + d.1 ∧ x + d.1 < w ∧ 0 ≤ y + d.2 ∧ y + d.2 < h) →
      raw (x + d.1, y + d.2) = ' ' →
      0 ≤ (bfsVisit w h raw x y st d).dist (x + d.1, y + d.2)) := by
  by_cases hg : (0 ≤ x + d.1 ∧ x + d.1 < w ∧ 0 ≤ y + d.2 ∧ y + d.2 < h) ∧
      raw (x + d.1, y + d.2) = ' ' ∧ st.dist (x + d.1, y + d.2) = -1
  case neg =>
    have hv : bfsVisit w h raw x y st d = st := by
      simp only [bfsVisit]
      rw [if_neg hg]
    rw [hv]
    refine ⟨haux, le_refl _, fun p hp => rfl, fun p hp => hp, fun p hp => Or.inl hp, ?_⟩
    intro hb hfl
    rcases haux.dist_lb (x + d.1, y + d.2) with hlb | hlb
    · exact absurd ⟨hb, hfl, hlb⟩ hg
    · exact hlb
  case pos =>
    obtain ⟨hb, hfl, hun⟩ := hg
    have hv : 0 ≤ st.dist (x, y) + 1 := by omega
    have hnd : (x + d.1, y + d.2) ∉ st.disc := fun hc => by
      have := (haux.assigned_iff _).mpr hc
      omega
    have hnq : (x + d.1, y + d.2) ∉ st.q := fun hc => hnd (haux.q_sub _ hc)
    have hd1 : ∀ p : ℤ × ℤ, p ≠ (x + d.1, y + d.2) →
        updI st.dist (x + d.1, y + d.2) (st.dist (x, y) + 1) p = st.dist p :=
      fun p hp => updI_ne _ _ _ p hp
    have hd2 : updI st.dist (x + d.1, y + d.2) (st.dist (x, y) + 1)
        (x + d.1, y + d.2) = st.dist (x, y) + 1 := updI_self _ _ _
    have hfarne : st.far ≠ (x + d.1, y + d.2) := fun hc => hnd (hc ▸ haux.far_disc)
    have hdfar : updI st.dist (x + d.1, y + d.2) (st.dist (x, y) + 1) st.far =
        st.dist st.far := hd1 _ hfarne
    have hidx_old : ∀ p ∈ st.disc,
        idxOf (st.disc ++ [(x + d.1, y + d.2)]) p = idxOf st.disc p :=
      fun p hp => idxOf_append_left hp
    have hidx_new : idxOf (st.disc ++ [(x + d.1, y + d.2)]) (x + d.1, y + d.2) =
        st.disc.length := idxOf_last hnd
    have hmem_new : ∀ p : ℤ × ℤ, p ∈ st.disc ++ [(x + d.1, y + d.2)] ↔
        (p ∈ st.disc ∨ p = (x + d.1, y + d.2)) := by
      intro p
      rw [List.mem_append, List.mem_singleton]
    have hveq : bfsVisit w h raw x y st d =
        { dist := updI st.dist (x + d.1, y + d.2) (st.dist (x, y) + 1),
          far := if updI st.dist (x + d.1, y + d.2) (st.dist (x, y) + 1) st.far <
              updI st.dist (x + d.1, y + d.2) (st.dist (x, y) + 1) (x + d.1, y + d.2)
            then (x + d.1, y + d.2) else st.far,
          q := st.q ++ [(x + d.1, y + d.2)],
          disc := st.disc ++ [(x + d.1, y + d.2)] } := by
      simp only [bfsVisit]
      rw [if_pos ⟨hb, hfl, hun⟩]
    rw [hveq]
    refine ⟨⟨?_, ?_, ?_, ?_, ?_, ?_, ?_, ?_, ?_, ?_, ?_⟩, ?_, ?_, ?_, ?_, ?_⟩
    all_goals dsimp only
    · intro p
      by_cases hp : p = (x + d.1, y + d.2)
      · subst hp
        rw [hd2]
        omega
      · rw [hd1 p hp]
        exact haux.dist_lb p
    · intro p
      by_cases hp : p = (x + d.1, y + d.2)
      · subst hp
        rw [hd2, hmem_new]
        constructor
        · intro _
          exact Or.inr rfl
        · intro _
          omega
      · rw [hd1 p hp, hmem_new]
        rw [haux.assigned_iff p]
        constructor
        · exact Or.inl
        · rintro (hh | hh)
          · exact hh
          · exact absurd hh hp
    · rw [List.nodup_append]
      exact ⟨haux.disc_nodup, List.nodup_singleton _,
        fun a ha hc => hnd ((List.mem_singleton.mp hc) ▸ ha)⟩
    · rw [List.nodup_append]
      exact ⟨haux.q_nodup, List.nodup_singleton _,
        fun a ha hc => hnq ((List.mem_singleton.mp hc) ▸ ha)⟩
    · intro p hp
      rw [List.mem_append, List.mem_singleton] at hp
      rw [hmem_new]
      rcases hp with hp | hp
      · exact Or.inl (haux.q_sub p hp)
      · exact Or.inr hp
    · intro p hp
      rw [hmem_new] at hp
      rcases hp with hp | rfl
      · exact haux.disc_ok p hp
      · exact Or.inr ⟨hfl, hb.1, hb.2.1, hb.2.2.1, hb.2.2.2⟩
    · intro p hp
      rw [hmem_new] at hp
      rcases hp with hp | rfl
      · exact haux.reach p hp
      · exact (haux.reach (x, y) hxyd).tail ⟨by rw [hfl]; decide, bfsDirs_adj hd⟩
    · split_ifs with hfar
      · rw [hmem_new]
        exact Or.inr rfl
      · rw [hmem_new]
        exact Or.inl haux.far_disc
    · intro p hp
      rw [hmem_new] at hp
      split_ifs with hfar
      · rw [hdfar, hd2] at hfar
        rcases hp with hp | rfl
        · have h1 := hd1 p (fun hc => hnd (hc ▸ hp))
          have h2 := haux.far_max p hp
          have h3 := hd2
          omega
        · have h3 := hd2
          omega
      · rw [hdfar, hd2] at hfar
        rcases hp with hp | rfl
        · have h1 := hd1 p (fun hc => hnd (hc ▸ hp))
          have h2 := haux.far_max p hp
          have h4 := hdfar
          omega
        · have h3 := hd2
          have h4 := hdfar
          omega
    · intro p hp hple
      rw [hmem_new] at hp
      split_ifs at hple ⊢ with hfar
      · rw [hdfar, hd2] at hfar
        rw [hidx_new]
        rcases hp with hp | rfl
        · have h1 := hd1 p (fun hc => hnd (hc ▸ hp))
          have h2 := haux.far_max p hp
          have h3 := hd2
          rw [h3, h1] at hple
          omega
        · have h5 := hidx_new
          omega
      · rw [hdfar, hd2] at hfar
        rw [hidx_old _ haux.far_disc]
        rcases hp with hp | rfl
        · rw [hdfar, hd1 p (fun hc => hnd (hc ▸ hp))] at hple
          rw [hidx_old _ hp]
          exact haux.far_first p hp hple
        · rw [hidx_new]
          have := idxOf_lt_length haux.far_disc
          omega
    · intro p hp hpq hpxy d' hd' hb' hfl'
      rw [hmem_new] at hp
      have hpq' : p ∉ st.q := fun hc => hpq (by
        rw [List.mem_append]
        exact Or.inl hc)
      rcases hp with hp | rfl
      · have hold := haux.closedX p hp hpq' hpxy d' hd' hb' hfl'
        by_cases ht : (p.1 + d'.1, p.2 + d'.2) = (x + d.1, y + d.2)
        · rw [ht, hd2]
          omega
        · rw [hd1 _ ht]
          exact hold
      · exact absurd (by
          rw [List.mem_append, List.mem_singleton]
          exact Or.inr rfl) hpq
    · have hrect : (x + d.1, y + d.2) ∈ rect w h := by
        rw [mem_rect]
        exact hb
      have hflt : (rect w h).filter
          (fun p => updI st.dist (x + d.1, y + d.2) (st.dist (x, y) + 1) p = -1) =
          ((rect w h).filter fun p => st.dist p = -1).erase (x + d.1, y + d.2) := by
        ext p
        rw [Finset.mem_erase, Finset.mem_filter, Finset.mem_filter]
        by_cases hp : p = (x + d.1, y + d.2)
        · subst hp
          rw [hd2]
          constructor
          · intro hh
            omega
          · rintro ⟨hne, -⟩
            exact absurd rfl hne
        · rw [hd1 p hp]
          constructor
          · rintro ⟨h1, h2⟩
            exact ⟨hp, h1, h2⟩
          · rintro ⟨-, h1, h2⟩
            exact ⟨h1, h2⟩
      unfold unvisited
      rw [hflt, List.length_append]
      have hmemf : (x + d.1, y + d.2) ∈ (rect w h).filter fun p => st.dist p = -1 := by
        rw [Finset.mem_filter]
        exact ⟨hrect, hun⟩
      rw [Finset.card_erase_of_mem hmemf]
      have hpos : 0 < ((rect w h).filter fun p => st.dist p = -1).card :=
        Finset.card_pos.mpr ⟨_, hmemf⟩
      simp only [List.length_singleton]
      omega
    · intro p hp
      exact hd1 p (fun hc => by
        subst hc
        omega)
    · intro p hp
      rw [hmem_new]
      exact Or.inl hp
    · intro p hp
      rw [List.mem_append, List.mem_singleton] at hp
      rcases hp with hp | rfl
      · exact Or.inl hp
      · exact Or.inr hnd
    · intro hb' hfl'
      rw [hd2]
      omega

theorem bfsVisit_fold (w h : ℤ) (raw : RawGrid) (start : ℤ × ℤ) (x y : ℤ) :
    ∀ (ds : List (ℤ × ℤ)), (∀ d ∈ ds, d ∈ bfsDirs) →
    ∀ (st : BfsState),
      BfsAux w h raw start (x, y) st →
      (x, y) ∈ st.disc → (x, y) ∉ st.q → 0 ≤ st.dist (x, y) →
      (BfsAux w h raw start (x, y) (ds.foldl (bfsVisit w h raw x y) st) ∧
       unvisited w h (ds.foldl (bfsVisit w h raw x y) st).dist +
         (ds.foldl (bfsVisit w h raw x y) st).q.length ≤
         unvisited w h st.dist + st.q.length ∧
       (∀ p : ℤ × ℤ, 0 ≤ st.dist p →
         (ds.foldl (bfsVisit w h raw x y) st).dist p = st.dist p) ∧
       (∀ p ∈ st.disc, p ∈ (ds.foldl (bfsVisit w h raw x y) st).disc) ∧
       (∀ p ∈ (ds.foldl (bfsVisit w h raw x y) st).q, p ∈ st.q ∨ p ∉ st.disc) ∧
       ((x, y) ∈ (ds.foldl (bfsVisit w h raw x y) st).disc ∧
        (x, y) ∉ (ds.foldl (bfsVisit w h raw x y) st).q ∧
        0 ≤ (ds.foldl (bfsVisit w h raw x y) st).dist (x, y)) ∧
       (∀ d ∈ ds, (0 ≤ x + d.1 ∧ x + d.1 < w ∧ 0 ≤ y + d.2 ∧ y + d.2 < h) →
          raw (x + d.1, y + d.2) = ' ' →
          0 ≤ (ds.foldl (bfsVisit w h raw x y) st).dist (x + d.1, y + d.2))) := by
  intro ds
  induction ds with
  | nil =>
    intro _ st haux hd1 hq1 hdist1
    refine ⟨haux, le_refl _, fun p hp => rfl, fun p hp => hp,
      fun p hp => Or.inl hp, ⟨hd1, hq1, hdist1⟩, ?_⟩
    intro d hd
    exact absurd hd (List.not_mem_nil d)
  | cons d ds ih =>
    intro hds st haux hd1 hq1 hdist1
    have hdbfs : d ∈ bfsDirs := hds d (List.mem_cons_self _ _)
    obtain ⟨aux1, mu1, eq1, disc1, q1, cl1⟩ :=
      bfsVisit_step w h raw start x y st d hdbfs haux hd1 hq1 hdist1
    have hxy_d1 : (x, y) ∈ (bfsVisit w h raw x y st d).disc := disc1 _ hd1
    have hxy_q1 : (x, y) ∉ (bfsVisit w h raw x y st d).q := fun hc => by
      rcases q1 _ hc with hc' | hc'
      · exact hq1 hc'
      · exact hc' hd1
    have hxy_dist1 : 0 ≤ (bfsVisit w h raw x y st d).dist (x, y) := by
      rw [eq1 _ hdist1]
      exact hdist1
    obtain ⟨aux2, mu2, eq2, disc2, q2, hxy2, cl2⟩ :=
      ih (fun d' hd' => hds d' (List.mem_cons_of_mem _ hd'))
        (bfsVisit w h raw x y st d) aux1 hxy_d1 hxy_q1 hxy_dist1
    rw [List.foldl_cons]
    refine ⟨aux2, le_trans mu2 mu1, ?_, ?_, ?_, hxy2, ?_⟩
    · intro p hp
      rw [eq2 p (by rw [eq1 p hp]; exact hp), eq1 p hp]
    · intro p hp
      exact disc2 p (disc1 p hp)
    · intro p hp
      rcases q2 p hp with hp' | hp'
      · exact q1 p hp'
      · exact Or.inr (fun hc => hp' (disc1 p hc))
    · intro d' hd' hb' hfl'
      rcases List.mem_cons.mp hd' with rfl | hd''
      · have h0 := cl1 hb' hfl'
        rw [eq2 _ h0]
        exact h0
      · exact cl2 d' hd'' hb' hfl'

theorem bfsLoop_succ (w h : ℤ) (raw : RawGrid) (fuel : ℕ) (st : BfsState) :
    bfsLoop w h raw (fuel + 1) st =
      match st.q with
      | [] => some st
      | (x, y) :: qrest =>
        bfsLoop w h raw fuel
          (bfsDirs.foldl (bfsVisit w h raw x y) ⟨st.dist, st.far, qrest, st.disc⟩) := rfl

/-- The BFS loop, run with enough fuel, completes with an empty queue while
maintaining the invariant; discovered cells and their distances persist. -/
theorem bfs_master (w h : ℤ) (raw : RawGrid) (start : ℤ × ℤ) :
    ∀ (fuel : ℕ) (st : BfsState),
      BfsInvF w h raw start st →
      unvisited w h st.dist + st.q.length < fuel →
      ∃ stf, bfsLoop w h raw fuel st = some stf ∧
        BfsInvF w h raw start stf ∧ stf.q = [] ∧
        (∀ p ∈ st.disc, p ∈ stf.disc) ∧
        (∀ p : ℤ × ℤ, 0 ≤ st.dist p → stf.dist p = st.dist p) := by
  intro fuel
  induction fuel with
  | zero =>
    intro st hinv hmu
    omega
  | succ fuel ih =>
    intro st hinv hmu
    rw [bfsLoop_succ]
    cases hq : st.q with
    | nil =>
      exact ⟨st, rfl, hinv, hq, fun p hp => hp, fun p hp => rfl⟩
    | cons hd qrest =>
      obtain ⟨x, y⟩ := hd
      have haux0 := hinv (x, y)
      have hxy_q : (x, y) ∈ st.q := by
        rw [hq]
        exact List.mem_cons_self _ _
      have hxy_disc : (x, y) ∈ st.disc := haux0.q_sub _ hxy_q
      have hxy_dist : 0 ≤ st.dist (x, y) := (haux0.assigned_iff _).mpr hxy_disc
      have hqrest_nodup : qrest.Nodup ∧ (x, y) ∉ qrest := by
        have := haux0.q_nodup
        rw [hq, List.nodup_cons] at this
        exact ⟨this.2, this.1⟩
      have haux' : BfsAux w h raw start (x, y) ⟨st.dist, st.far, qrest, st.disc⟩ := by
        refine ⟨haux0.dist_lb, haux0.assigned_iff, haux0.disc_nodup,
          hqrest_nodup.1, ?_, haux0.disc_ok, haux0.reach, haux0.far_disc,
          haux0.far_max, haux0.far_first, ?_⟩
        · intro p hp
          exact haux0.q_sub p (by rw [hq]; exact List.mem_cons_of_mem _ hp)
        · intro p hp hpq hpxy d hd hb hfl
          exact haux0.closedX p hp (by
            rw [hq, List.mem_cons]
            rintro (hc | hc)
            · exact hpxy hc
            · exact hpq hc) hpxy d hd hb hfl
      obtain ⟨aux1, mu1, eq1, disc1, q1, hxy1, cl1⟩ :=
        bfsVisit_fold w h raw start x y bfsDirs (fun d hd => hd)
          ⟨st.dist, st.far, qrest, st.disc⟩ haux' hxy_disc hqrest_nodup.2 hxy_dist
      have hfull : BfsInvF w h raw start
          (bfsDirs.foldl (bfsVisit w h raw x y) ⟨st.dist, st.far, qrest, st.disc⟩) := by
        intro xy'
        refine ⟨aux1.dist_lb, aux1.assigned_iff, aux1.disc_nodup, aux1.q_nodup,
          aux1.q_sub, aux1.disc_ok, aux1.reach, aux1.far_disc, aux1.far_max,
          aux1.far_first, ?_⟩
        intro p hp hpq hpxy d hd hb hfl
        by_cases hpx : p = (x, y)
        · subst hpx
          exact cl1 d hd hb hfl
        · exact aux1.closedX p hp hpq hpx d hd hb hfl
      have hmu1 : unvisited w h
          (bfsDirs.foldl (bfsVisit w h raw x y) ⟨st.dist, st.far, qrest, st.disc⟩).dist +
          (bfsDirs.foldl (bfsVisit w h raw x y) ⟨st.dist, st.far, qrest, st.disc⟩).q.length
          < fuel := by
        have hlen : st.q.length = qrest.length + 1 := by
          rw [hq, List.length_cons]
        have : unvisited w h st.dist + qrest.length + 1 < fuel + 1 := by omega
        have hle := mu1
        simp only at hle
        omega
      obtain ⟨stf, hloop, hinvf, hqf, discf, eqf⟩ := ih _ hfull hmu1
      refine ⟨stf, hloop, hinvf, hqf, ?_, ?_⟩
      · intro p hp
        exact discf p (disc1 p hp)
      · intro p hp
        rw [eqf p (by rw [eq1 p hp]; exact hp), eq1 p hp]

/-- The invariant holds for the initial BFS state (start discovered at
distance 0, queued, farthest-so-far). -/
theorem bfs_init_inv (w h : ℤ) (raw : RawGrid) (start : ℤ × ℤ) :
    BfsInvF w h raw start
      ⟨updI (fun _ => -1) start 0, start, [start], [start]⟩ := by
  intro xy
  refine ⟨?_, ?_, ?_, ?_, ?_, ?_, ?_, ?_, ?_, ?_, ?_⟩
  all_goals dsimp only
  · intro p
    by_cases hp : p = start
    · subst hp
      rw [updI_self]
      right
      omega
    · rw [updI_ne _ _ _ _ hp]
      left
      rfl
  · intro p
    by_cases hp : p = start
    · subst hp
      rw [updI_self]
      simp
    · rw [updI_ne _ _ _ _ hp]
      simp only [List.mem_singleton]
      constructor
      · intro h0
        omega
      · intro h0
        exact absurd h0 hp
  · exact List.nodup_singleton start
  · exact List.nodup_singleton start
  · intro p hp
    exact hp
  · intro p hp
    rw [List.mem_singleton] at hp
    exact Or.inl hp
  · intro p hp
    rw [List.mem_singleton] at hp
    subst hp
    exact Relation.ReflTransGen.refl
  · exact List.mem_singleton.mpr rfl
  · intro p hp
    rw [List.mem_singleton] at hp
    subst hp
    exact le_refl _
  · intro p hp
    rw [List.mem_singleton] at hp
    subst hp
    intro _
    exact le_refl _
  · intro p hp hpq
    rw [List.mem_singleton] at hp
    subst hp
    exact absurd (List.mem_singleton.mpr rfl) hpq

/-- The carved raw grid only ever holds walls and floors. -/
def BinaryRaw (raw : RawGrid) : Prop := ∀ p : ℤ × ℤ, raw p = '#' ∨ raw p = ' '

theorem binary_upd {raw : RawGrid} (hb : BinaryRaw raw) (p : ℤ × ℤ) :
    BinaryRaw (upd raw p ' ') := by
  intro q
  unfold upd
  split_ifs
  · exact Or.inr rfl
  · exact hb q

theorem carveLoop_nil (w h : ℤ) (f : ℕ → List (ℤ × ℤ)) (fuel n : ℕ)
    (raw : RawGrid) : carveLoop w h f (fuel + 1) n raw [] = some raw := rfl

theorem carveLoop_binary (w h : ℤ) (f : ℕ → List (ℤ × ℤ)) :
    ∀ (fuel n : ℕ) (raw : RawGrid) (stack : List (ℤ × ℤ)) (raw' : RawGrid),
      carveLoop w h f fuel n raw stack = some raw' →
      BinaryRaw raw → BinaryRaw raw' := by
  intro fuel
  induction fuel with
  | zero =>
    intro n raw stack raw' hc
    exact absurd hc (by unfold carveLoop; simp)
  | succ fuel ih =>
    intro n raw stack raw' hc hbin
    cases stack with
    | nil =>
      rw [carveLoop_nil] at hc
      obtain rfl := Option.some.inj hc
      exact hbin
    | cons top rest =>
      obtain ⟨x, y⟩ := top
      rw [carveLoop_cons] at hc
      cases hfd : findDir w h raw x y (f n) with
      | some d =>
        rw [hfd] at hc
        exact ih _ _ _ _ hc (binary_upd (binary_upd hbin _) _)
      | none =>
        rw [hfd] at hc
        exact ih _ _ _ _ hc hbin

/-- BFS completeness: once the queue is drained, every cell reachable from
the start through floor steps has been discovered. -/
theorem bfs_complete (w h : ℤ) (raw : RawGrid) (start : ℤ × ℤ)
    (stf : BfsState) (hinv : BfsInvF w h raw start stf) (hq : stf.q = [])
    (hstart : start ∈ stf.disc)
    (hbin : BinaryRaw raw)
    (hbnd : ∀ p : ℤ × ℤ, raw p ≠ '#' →
      0 ≤ p.1 ∧ p.1 < w ∧ 0 ≤ p.2 ∧ p.2 < h) :
    ∀ p : ℤ × ℤ, ReachF raw start p → p ∈ stf.disc := by
  intro p hr
  induction hr with
  | refl => exact hstart
  | tail hab hbc ih =>
    rename_i b c
    have hbq : b ∉ stf.q := by
      rw [hq]
      exact List.not_mem_nil b
    have hne : b ≠ (b.1 - 1, b.2 - 1) := by
      intro hceq
      have h1 : b.1 = b.1 - 1 := congrArg Prod.fst hceq
      omega
    have haux := hinv (b.1 - 1, b.2 - 1)
    have hcb := hbnd c hbc.1
    have hcfl : raw c = ' ' := (hbin c).resolve_left hbc.1
    have hstepd : ∀ d ∈ bfsDirs, c = (b.1 + d.1, b.2 + d.2) → c ∈ stf.disc := by
      intro d hd hcd
      have hb2 : 0 ≤ b.1 + d.1 ∧ b.1 + d.1 < w ∧ 0 ≤ b.2 + d.2 ∧ b.2 + d.2 < h := by
        rw [hcd] at hcb
        exact hcb
      have h0 := haux.closedX b ih hbq hne d hd hb2 (by rw [← hcd]; exact hcfl)
      rw [← hcd] at h0
      exact (haux.assigned_iff c).mp h0
    have hadj := (adj_iff b c).mp hbc.2
    rcases hadj with ⟨h1, h2⟩ | ⟨h1, h2⟩ | ⟨h1, h2⟩ | ⟨h1, h2⟩
    · refine hstepd (1, 0) (by simp [bfsDirs]) ?_
      rw [Prod.ext_iff]
      exact ⟨by dsimp only; omega, by dsimp only; omega⟩
    · refine hstepd (-1, 0) (by simp [bfsDirs]) ?_
      rw [Prod.ext_iff]
      exact ⟨by dsimp only; omega, by dsimp only; omega⟩
    · refine hstepd (0, 1) (by simp [bfsDirs]) ?_
      rw [Prod.ext_iff]
      exact ⟨by dsimp only; omega, by dsimp only; omega⟩
    · refine hstepd (0, -1) (by simp [bfsDirs]) ?_
      rw [Prod.ext_iff]
      exact ⟨by dsimp only; omega, by dsimp only; omega⟩

/-- Everything `generate_data` guarantees about a successful run: the carve
invariant (with an empty stack), binary wall/floor content, positive
dimensions, and the BFS facts — discovery characterises nonnegative
distance, discovered cells are reachable floor cells, every floor cell is
discovered, and the farthest cell maximises distance with discovery order
breaking ties. -/
theorem generate_data_spec (width0 height0 : ℤ) (pick1 pick2 : ℕ)
    (f : ℕ → List (ℤ × ℤ)) (hf : ∀ n, ∀ dd ∈ f n, dd ∈ dirs4)
    (d : GenData) (hgen : generate_data width0 height0 pick1 pick2 f = some d) :
    CarveInv d.w d.h d.start d.raw [] ∧
    BinaryRaw d.raw ∧
    0 < d.w ∧ 0 < d.h ∧
    (∀ p : ℤ × ℤ, 0 ≤ d.dist p ↔ p ∈ d.disc) ∧
    (∀ p ∈ d.disc, ReachF d.raw d.start p) ∧
    (∀ p ∈ d.disc, d.raw p ≠ '#') ∧
    (∀ p : ℤ × ℤ, d.raw p ≠ '#' → p ∈ d.disc) ∧
    d.exitPos ∈ d.disc ∧
    (∀ p ∈ d.disc, d.dist p ≤ d.dist d.exitPos) ∧
    (∀ p ∈ d.disc, d.dist d.exitPos ≤ d.dist p →
      idxOf d.disc d.exitPos ≤ idxOf d.disc p) := by
  simp only [generate_data] at hgen
  set W := if width0 % 2 = 0 then width0 + 1 else width0 with hW
  set H := if height0 % 2 = 0 then height0 + 1 else height0 with hH
  split at hgen
  next sx sy heq1 heq2 =>
    obtain ⟨hsxp, hsx1, hsxw⟩ := randrangeOdd_spec _ pick1 sx heq1
    obtain ⟨hsyp, hsy1, hsyh⟩ := randrangeOdd_spec _ pick2 sy heq2
    have hwodd : W % 2 = 1 := by
      rw [hW]
      split_ifs <;> omega
    have hhodd : H % 2 = 1 := by
      rw [hH]
      split_ifs <;> omega
    have hinit := carveInv_init W H sx sy hwodd hhodd
      ⟨hsxp, hsx1, hsxw⟩ ⟨hsyp, hsy1, hsyh⟩
    have hbin0 : BinaryRaw (upd (fun _ => '#') (sx, sy) ' ') :=
      binary_upd (fun p => Or.inl rfl) (sx, sy)
    obtain ⟨raw', hcl, hinv⟩ :=
      carve_master W H (sx, sy) f hf
        (2 * wallCount W H (upd (fun _ => '#') (sx, sy) ' ') + 2) 0
        (upd (fun _ => '#') (sx, sy) ' ') [(sx, sy)]
        (by simp only [List.length_singleton]; omega) hinit
    split at hgen
    next heqc => exact Option.noConfusion (hcl.symm.trans heqc)
    next raw2 heqc =>
      obtain rfl : raw' = raw2 := Option.some.inj (hcl.symm.trans heqc)
      have hbinary := carveLoop_binary W H f _ 0 _ _ _ hcl hbin0
      have hinvF0 := bfs_init_inv W H raw' (sx, sy)
      have hmeas : unvisited W H (updI (fun _ => -1) (sx, sy) 0) + 1 <
          (rect W H).card + 2 := by
        have hle : unvisited W H (updI (fun _ => -1) (sx, sy) 0) ≤
            (rect W H).card := by
          unfold unvisited
          exact Finset.card_filter_le _ _
        omega
      obtain ⟨stf, hbl, hinvF, hqf, hdiscf, hdistf⟩ :=
        bfs_master W H raw' (sx, sy) ((rect W H).card + 2)
          ⟨updI (fun _ => -1) (sx, sy) 0, (sx, sy), [(sx, sy)], [(sx, sy)]⟩
          hinvF0 (by dsimp only; simpa using hmeas)
      split at hgen
      next heqb => exact Option.noConfusion (hbl.symm.trans heqb)
      next stb heqb =>
        obtain rfl : stf = stb := Option.some.inj (hbl.symm.trans heqb)
        obtain rfl := Option.some.inj hgen
        have haux := hinvF ((0 : ℤ), (0 : ℤ))
        have hstart : (sx, sy) ∈ stf.disc :=
          hdiscf (sx, sy) (List.mem_singleton.mpr rfl)
        have hbnd : ∀ p : ℤ × ℤ, raw' p ≠ '#' →
            0 ≤ p.1 ∧ p.1 < W ∧ 0 ≤ p.2 ∧ p.2 < H := by
          intro p hp
          have hi := hinv.floor_interior p hp
          exact ⟨by omega, by omega, by omega, by omega⟩
        have hdiscfl : ∀ p ∈ stf.disc, raw' p ≠ '#' := by
          intro p hp
          rcases haux.disc_ok p hp with rfl | ⟨hsp, -⟩
          · exact hinv.start_floor
          · rw [hsp]
            decide
        have hcomp : ∀ p : ℤ × ℤ, raw' p ≠ '#' → p ∈ stf.disc := by
          intro p hp
          exact bfs_complete W H raw' (sx, sy) stf hinvF hqf hstart hbinary
            hbnd p (hinv.conn p hp)
        exact ⟨hinv, hbinary, by dsimp only; omega, by dsimp only; omega,
          haux.assigned_iff, haux.reach,
          hdiscfl, hcomp, haux.far_disc, haux.far_max, haux.far_first⟩
  next =>
    exact Option.noConfusion hgen

/-! ### From the raw char grid to the returned cell grid -/

theorem rawToGrid_height (w h : ℤ) (raw : RawGrid) (hh : 0 ≤ h) :
    Maze.height (rawToGrid w h raw) = h := by
  unfold Maze.height rawToGrid
  rw [List.length_map, List.length_range]
  omega

theorem rawToGrid_width (w h : ℤ) (raw : RawGrid) (hw : 0 ≤ w) (hh : 0 < h) :
    Maze.width (rawToGrid w h raw) = w := by
  unfold Maze.width rawToGrid
  cases hn : h.toNat with
  | zero => omega
  | succ m =>
    rw [List.range_succ_eq_map, List.map_cons]
    dsimp only
    rw [List.length_map, List.length_range]
    omega

theorem rawToGrid_cell_at (w h : ℤ) (raw : RawGrid) (x y : ℤ)
    (hx : 0 ≤ x) (hxw : x < w) (hy : 0 ≤ y) (hyh : y < h) :
    Maze.cell_at (rawToGrid w h raw) x y = some (cell_from_char (raw (x, y))) := by
  have hyn : y.toNat < h.toNat := by omega
  have hxn : x.toNat < w.toNat := by omega
  unfold Maze.cell_at rawToGrid
  rw [pyIdx_nonneg _ _ hy, List.get?_map, List.get?_range hyn]
  simp only [Option.map_some', Option.some_bind]
  rw [pyIdx_nonneg _ _ hx, List.get?_map, List.get?_range hxn]
  simp only [Option.map_some']
  rw [Int.toNat_of_nonneg hx, Int.toNat_of_nonneg hy]

theorem cell_from_char_wall (c : Char) :
    (cell_from_char c).symbol = "#" ↔ c = '#' := by
  unfold cell_from_char
  split_ifs with h1 h2 h3
  · exact iff_of_true rfl h1
  · exact iff_of_false (by decide) h1
  · exact iff_of_false (by decide) h1
  · exact iff_of_false (by decide) h1

/-- Floor cells of a cell grid (symbol other than the wall glyph). -/
def gridFloorFinset (g : Grid) : Finset (ℤ × ℤ) :=
  (rect (Maze.width g) (Maze.height g)).filter fun p => symAt g p.1 p.2 ≠ "#"

/-- Ordered adjacent floor pairs of a cell grid. -/
def gridArcFinset (g : Grid) : Finset ((ℤ × ℤ) × (ℤ × ℤ)) :=
  ((gridFloorFinset g) ×ˢ (gridFloorFinset g)).filter fun pq => Adj pq.1 pq.2

/-- Undirected 4-adjacency edges between floor cells of a cell grid. -/
def gridEdgeFinset (g : Grid) : Finset (Sym2 (ℤ × ℤ)) :=
  (gridArcFinset g).image fun pq => s(pq.1, pq.2)

theorem gridFloorFinset_rawToGrid (w h : ℤ) (raw : RawGrid)
    (hw : 0 ≤ w) (hh : 0 < h) :
    gridFloorFinset (rawToGrid w h raw) = floorFinset w h raw := by
  unfold gridFloorFinset floorFinset
  rw [rawToGrid_width w h raw hw hh, rawToGrid_height w h raw (le_of_lt hh)]
  apply Finset.filter_congr
  intro p hp
  rw [mem_rect] at hp
  unfold symAt
  rw [rawToGrid_cell_at w h raw p.1 p.2 hp.1 hp.2.1 hp.2.2.1 hp.2.2.2]
  simp only [Option.map_some', Option.getD_some, ne_eq, Prod.mk.eta,
    cell_from_char_wall]

/-- Overwriting a floor cell with a non-wall glyph (the exit) keeps the
floor set. -/
theorem floorFinset_upd (w h : ℤ) (raw : RawGrid) (e : ℤ × ℤ) (c : Char)
    (hc : c ≠ '#') (he : raw e ≠ '#') :
    floorFinset w h (upd raw e c) = floorFinset w h raw := by
  unfold floorFinset
  apply Finset.filter_congr
  intro p hp
  unfold upd
  by_cases hpe : p = e
  · rw [if_pos hpe, hpe]
    exact iff_of_true hc he
  · rw [if_neg hpe]

/-- C1: for every size and every random stream, a successfully generated
grid is a perfect maze — its floor cells (4-directional adjacency) are
pairwise connected, and the floor graph has exactly (floor count − 1)
undirected edges, hence no cycles. -/
theorem C1_perfect_maze (width0 height0 : ℤ) (pick1 pick2 : ℕ)
    (f : ℕ → List (ℤ × ℤ)) (hf : ∀ n, ∀ dd ∈ f n, dd ∈ dirs4)
    (g : Grid) (start : ℤ × ℤ)
    (hgen : generate_perfect_maze_cells width0 height0 pick1 pick2 f =
      some (g, start)) :
    (∀ p q : ℤ × ℤ, p ∈ gridFloorFinset g → q ∈ gridFloorFinset g →
      Relation.ReflTransGen
        (fun a b => a ∈ gridFloorFinset g ∧ b ∈ gridFloorFinset g ∧ Adj a b)
        p q) ∧
    (gridEdgeFinset g).card + 1 = (gridFloorFinset g).card := by
  unfold generate_perfect_maze_cells at hgen
  rw [Option.map_eq_some'] at hgen
  obtain ⟨d, hd, hpair⟩ := hgen
  rw [Prod.mk.injEq] at hpair
  obtain ⟨hg, hstart⟩ := hpair
  subst hg
  obtain ⟨hinv, hbin, hwpos, hhpos, hiff, hreach, hdiscfl, hcomp, hexit,
    hmax, hfirst⟩ := generate_data_spec width0 height0 pick1 pick2 f hf d hd
  have hexitfl : d.raw d.exitPos ≠ '#' := hdiscfl _ hexit
  have hGF : gridFloorFinset (rawToGrid d.w d.h (upd d.raw d.exitPos 'X')) =
      floorFinset d.w d.h d.raw := by
    rw [gridFloorFinset_rawToGrid d.w d.h _ (le_of_lt hwpos) hhpos]
    exact floorFinset_upd d.w d.h d.raw d.exitPos 'X' (by decide) hexitfl
  have hGE : gridEdgeFinset (rawToGrid d.w d.h (upd d.raw d.exitPos 'X')) =
      edgeFinset d.w d.h d.raw := by
    unfold gridEdgeFinset gridArcFinset edgeFinset arcFinset
    rw [hGF]
  rw [hGF, hGE]
  exact ⟨conn_pairwise d.w d.h d.start d.raw hinv,
    edge_count d.w d.h d.start d.raw hinv⟩

/-- A concrete generated maze (3×3, trivial random streams), for witnessing. -/
def mazeW : Grid × (ℤ × ℤ) :=
  (generate_perfect_maze_cells 3 3 0 0 (fun _ => dirs4)).getD ([], (0, 0))

theorem C1_perfect_maze_witness :
    (∀ p q : ℤ × ℤ, p ∈ gridFloorFinset mazeW.1 → q ∈ gridFloorFinset mazeW.1 →
      Relation.ReflTransGen
        (fun a b => a ∈ gridFloorFinset mazeW.1 ∧ b ∈ gridFloorFinset mazeW.1 ∧
          Adj a b) p q) ∧
    (gridEdgeFinset mazeW.1).card + 1 = (gridFloorFinset mazeW.1).card :=
  C1_perfect_maze 3 3 0 0 (fun _ => dirs4) (fun n dd hdd => hdd)
    mazeW.1 mazeW.2 rfl

instance : Inhabited GenData :=
  ⟨⟨0, 0, fun _ => '#', fun _ => -1, [], (0, 0), (0, 0)⟩⟩

/-- C2: the exit cell the generator selects (the cell overwritten with `X`
in the returned grid) is a floor cell reachable from the returned start,
its BFS distance is maximal among all floor cells, and among the cells
attaining that distance it is the first one BFS discovered. -/
theorem C2_exit_farthest (width0 height0 : ℤ) (pick1 pick2 : ℕ)
    (f : ℕ → List (ℤ × ℤ)) (hf : ∀ n, ∀ dd ∈ f n, dd ∈ dirs4)
    (d : GenData) (hgen : generate_data width0 height0 pick1 pick2 f = some d) :
    generate_perfect_maze_cells width0 height0 pick1 pick2 f =
      some (rawToGrid d.w d.h (upd d.raw d.exitPos 'X'), d.start) ∧
    d.raw d.exitPos ≠ '#' ∧
    ReachF d.raw d.start d.exitPos ∧
    (∀ p : ℤ × ℤ, d.raw p ≠ '#' → d.dist p ≤ d.dist d.exitPos) ∧
    (∀ p : ℤ × ℤ, d.raw p ≠ '#' → d.dist d.exitPos ≤ d.dist p →
      idxOf d.disc d.exitPos ≤ idxOf d.disc p) := by
  obtain ⟨hinv, hbin, hwpos, hhpos, hiff, hreach, hdiscfl, hcomp, hexit,
    hmax, hfirst⟩ := generate_data_spec width0 height0 pick1 pick2 f hf d hgen
  refine ⟨?_, hdiscfl _ hexit, hreach _ hexit, ?_, ?_⟩
  · unfold generate_perfect_maze_cells
    rw [hgen]
    rfl
  · intro p hp
    exact hmax p (hcomp p hp)
  · intro p hp hle
    exact hfirst p (hcomp p hp) hle

/-- The generator data of the concrete 3×3 run, for witnessing. -/
def dW : GenData := (generate_data 3 3 0 0 (fun _ => dirs4)).getD default

theorem C2_exit_farthest_witness :
    generate_perfect_maze_cells 3 3 0 0 (fun _ => dirs4) =
      some (rawToGrid dW.w dW.h (upd dW.raw dW.exitPos 'X'), dW.start) ∧
    dW.raw dW.exitPos ≠ '#' ∧
    ReachF dW.raw dW.start dW.exitPos ∧
    (∀ p : ℤ × ℤ, dW.raw p ≠ '#' → dW.dist p ≤ dW.dist dW.exitPos) ∧
    (∀ p : ℤ × ℤ, dW.raw p ≠ '#' → dW.dist dW.exitPos ≤ dW.dist p →
      idxOf dW.disc dW.exitPos ≤ idxOf dW.disc p) :=
  C2_exit_farthest 3 3 0 0 (fun _ => dirs4) (fun n dd hdd => hdd) dW rfl
